import Mathlib

/-!
Shallow embedding of `ukkonen.py` (suffix-tree construction by Ukkonen's
algorithm, plus substring search).  Python objects (`Node`, `RootNode`,
`ImplicitNode`) are modelled by an arena of `NodeData` records indexed by
natural numbers; mutation becomes explicit state passing of the arena,
Python exceptions become `Except Err`, and unbounded recursion is driven
by an explicit fuel parameter.
-/

namespace UkkonenPy

/-- Python exception kinds that the source can raise, plus fuel exhaustion
of the embedding. -/
inductive Err where
  | keyError
  | indexError
  | attrError
  | assertError
  | fuelOut
  | negPos
deriving Repr, DecidableEq

/-- A `BaseNode` value in the source: either an explicit `Node` (arena index)
or an `ImplicitNode(node, position)`. -/
inductive Ref where
  | exp (i : Nat)
  | imp (i : Nat) (pos : Nat)
deriving Repr, DecidableEq

/-- The mutable fields of a `Node` object (`RootNode` is the same record with
`is_root = true`).  `edges` is the Python dict `self.edges` as an association
list (Python dict insertion order; keys unique by construction), values are
arena indices.  `suffix_link_memo` is `self._suffix_link`. -/
structure NodeData where
  parent_node : Option Nat
  edge_start : Nat
  edge_end : Nat
  edges : List (Char × Nat)
  suffix_link_memo : Option Ref
  is_root : Bool
deriving Repr, DecidableEq

/-- The whole object graph: the shared input string and the node arena.
Index 0 is the root. -/
structure Tree where
  string : List Char
  nodes : List NodeData
deriving Repr, DecidableEq

/-- Python dict lookup `d[k]` as an option. -/
def py_dict_get (l : List (Char × Nat)) (k : Char) : Option Nat :=
  match l with
  | [] => none
  | (k1, v) :: rest => if k1 = k then some v else py_dict_get rest k

/-- Python dict assignment `d[k] = v`: replaces the entry with key `k` in
place, or appends a new entry. -/
def py_dict_set (l : List (Char × Nat)) (k : Char) (v : Nat) : List (Char × Nat) :=
  match l with
  | [] => [(k, v)]
  | (k1, v1) :: rest => if k1 = k then (k, v) :: rest else (k1, v1) :: py_dict_set rest k v

/-- Python string indexing `s[i]` for the non-negative indices the program
uses; out of range raises `IndexError`. -/
def py_get (s : List Char) (i : Nat) : Except Err Char :=
  match s.get? i with
  | some c => .ok c
  | none => .error .indexError

/-- `end = end or start + 1` from `trace_string` (note Python falsiness:
both `None` and `0` are replaced). -/
def py_end (start : Nat) (e : Option Nat) : Nat :=
  match e with
  | none => start + 1
  | some 0 => start + 1
  | some (n+1) => n+1

/-- `edge_end or len(string)` from `Node.__init__` (again `None` and `0`
both fall back to the string length). -/
def py_default_end (e : Option Nat) (len : Nat) : Nat :=
  match e with
  | none => len
  | some 0 => len
  | some (n+1) => n+1

/-- Lift an `Option` to `Except`, raising the given Python exception on
`none`. -/
def lift? {α : Type} (o : Option α) (e : Err) : Except Err α :=
  match o with
  | some a => .ok a
  | none => .error e

/-- Arena lookup (attribute access on a node object). -/
def Tree.node? (t : Tree) (i : Nat) : Option NodeData :=
  t.nodes.get? i

/-- In-place update of one arena slot (mutation of one node object). -/
def modifyAt (ns : List NodeData) (i : Nat) (f : NodeData → NodeData) : List NodeData :=
  match ns, i with
  | [], _ => []
  | x :: xs, 0 => f x :: xs
  | x :: xs, n+1 => x :: modifyAt xs n f

/-- `Node.__init__(string, parent_node, edge_start, edge_end=None)`:
`edge_end` defaults (via Python `or`) to `len(string)`; fresh nodes have no
children, no memoized suffix link, and are not the root. -/
def mkNode (len : Nat) (parent : Nat) (edge_start : Nat) (edge_end : Option Nat) : NodeData :=
  { parent_node := some parent
    edge_start := edge_start
    edge_end := py_default_end edge_end len
    edges := []
    suffix_link_memo := none
    is_root := false }

/-- `Node.length`: `self.edge_end - self.edge_start` (Python int; the embedding
keeps it as `Int` where the source compares it). -/
def edgeLength (nd : NodeData) : Int :=
  (nd.edge_end : Int) - (nd.edge_start : Int)

/-- `trace_string(start, end)` on either node kind (dynamic dispatch on the
`Ref` constructor).  Mirrors `Node.trace_string` (lines 80-90) and
`ImplicitNode.trace_string` (lines 224-229) of the source, including the
`start - end` comparison the implicit variant performs.  The positions the
embedding stores are naturals; at the four spots where the Python program
could in principle compute a negative position the embedding returns
`Err.negPos` instead of silently truncating, so every run that does not
report `negPos` computes exactly the Python values. -/
def trace_string : Nat → Tree → Ref → Nat → Option Nat → Except Err Ref
  | 0, _, _, _, _ => .error .fuelOut
  | fuel+1, t, .exp i, start, e =>
    let e := py_end start e
    if start = e then .ok (.exp i)
    else do
      let nd ← lift? (t.node? i) .indexError
      let letter ← py_get t.string start
      let j ← lift? (py_dict_get nd.edges letter) .keyError
      let ed ← lift? (t.node? j) .indexError
      if (e : Int) - (start : Int) ≥ edgeLength ed then
        if start + ed.edge_end < ed.edge_start then .error .negPos
        else trace_string fuel t (.exp j) (start + ed.edge_end - ed.edge_start) (some e)
      else
        if ed.edge_start + e < start then .error .negPos
        else .ok (.imp j (ed.edge_start + e - start))
  | fuel+1, t, .imp i pos, start, e =>
    let e := py_end start e
    do
      let nd ← lift? (t.node? i) .indexError
      if (start : Int) - (e : Int) < (nd.edge_end : Int) - (pos : Int) then
        if pos + e < start then .error .negPos
        else .ok (.imp i (pos + e - start))
      else
        if start + nd.edge_end < pos then .error .negPos
        else trace_string fuel t (.exp i) (start + nd.edge_end - pos) (some e)

/-- `Node.search_string(pattern)` (lines 92-113): pattern containment query
starting from the explicit node `i`. -/
def search_string : Nat → Tree → Nat → List Char → Except Err Bool
  | 0, _, _, _ => .error .fuelOut
  | fuel+1, t, i, pattern =>
    match pattern with
    | [] => .ok true
    | letter :: _ => do
      let nd ← lift? (t.node? i) .indexError
      match py_dict_get nd.edges letter with
      | none => .ok false
      | some j => do
        let ed ← lift? (t.node? j) .indexError
        if ed.edge_end < ed.edge_start then .error .negPos else
        let elen := ed.edge_end - ed.edge_start
        let pattern_chunk := pattern.take elen
        let edge_chunk := ((t.string.drop ed.edge_start).take elen).take pattern.length
        if pattern_chunk = edge_chunk then
          if pattern.length ≥ elen then
            search_string fuel t j (pattern.drop elen)
          else .ok true
        else .ok false

/-- Write `self._suffix_link = r` on node `i`. -/
def setMemo (t : Tree) (i : Nat) (r : Ref) : Tree :=
  { t with nodes := modifyAt t.nodes i (fun d => { d with suffix_link_memo := some r }) }

/-- The `suffix_link` property read on an explicit node: `RootNode.suffix_link`
returns `None`; `Node._get_suffix_link` memoizes `_calculate_suffix_link`
(lines 58-78).  Returns the property value together with the possibly
memo-updated arena. -/
def get_suffix_link : Nat → Tree → Nat → Except Err (Option Ref × Tree)
  | 0, _, _ => .error .fuelOut
  | fuel+1, t, i => do
    let nd ← lift? (t.node? i) .indexError
    if nd.is_root then .ok (none, t)
    else
      match nd.suffix_link_memo with
      | some r => .ok (some r, t)
      | none => do
        let p ← lift? nd.parent_node .attrError
        let psl ← get_suffix_link fuel t p
        let t1 := psl.2
        let nd1 ← lift? (t1.node? i) .indexError
        let r ← match psl.1 with
          | none => trace_string fuel t1 (.exp p) (nd1.edge_start + 1) (some nd1.edge_end)
          | some q => trace_string fuel t1 q nd1.edge_start (some nd1.edge_end)
        .ok (some r, setMemo t1 i r)

/-- `Node._calculate_suffix_link` (lines 69-78) in isolation: the computation
performed when the memo is empty, without the memo write. -/
def calc_suffix_link (fuel : Nat) (t : Tree) (i : Nat) : Except Err (Ref × Tree) := do
  let nd ← lift? (t.node? i) .indexError
  let p ← lift? nd.parent_node .attrError
  let psl ← get_suffix_link fuel t p
  let t1 := psl.2
  let nd1 ← lift? (t1.node? i) .indexError
  let r ← match psl.1 with
    | none => trace_string fuel t1 (.exp p) (nd1.edge_start + 1) (some nd1.edge_end)
    | some q => trace_string fuel t1 q nd1.edge_start (some nd1.edge_end)
  .ok (r, t1)

/-- `ImplicitNode.suffix_link` (lines 211-222): the computed property of an
implicit reference `(i, pos)` (never memoized). -/
def implicit_suffix_link (fuel : Nat) (t : Tree) (i pos : Nat) : Except Err (Ref × Tree) := do
  let nd ← lift? (t.node? i) .indexError
  let p ← lift? nd.parent_node .attrError
  let psl ← get_suffix_link fuel t p
  let t1 := psl.2
  let nd1 ← lift? (t1.node? i) .indexError
  match psl.1 with
  | none => do
    let pd ← lift? (t1.node? p) .indexError
    if pd.is_root then do
      let r ← trace_string fuel t1 (.exp p) (nd1.edge_start + 1) (some pos)
      .ok (r, t1)
    else .error .assertError
  | some q => do
    let r ← trace_string fuel t1 q nd1.edge_start (some pos)
    .ok (r, t1)

/-- `current_node.suffix_link` as read by the construction loop, on either
node kind. -/
def ref_suffix_link (fuel : Nat) (t : Tree) (r : Ref) : Except Err (Option Ref × Tree) :=
  match r with
  | .exp i => get_suffix_link fuel t i
  | .imp i pos => do
    let rt ← implicit_suffix_link fuel t i pos
    .ok (some rt.1, rt.2)

/-- `add_edge(position)` on either node kind: `Node.add_edge` (lines 43-56)
and `ImplicitNode.add_edge` (lines 178-209, including the edge split). -/
def add_edge (fuel : Nat) (t : Tree) (r : Ref) (position : Nat) :
    Except Err (Nat × Ref × Tree) :=
  match r with
  | .exp i => do
    let nd ← lift? (t.node? i) .indexError
    let letter ← py_get t.string position
    if (py_dict_get nd.edges letter).isSome then do
      let r1 ← trace_string fuel t (.exp i) position none
      .ok (3, r1, t)
    else if nd.edges ≠ [] ∨ nd.is_root then
      let j := t.nodes.length
      let leaf := mkNode t.string.length i position none
      let ns := modifyAt (t.nodes ++ [leaf]) i (fun d => { d with edges := py_dict_set d.edges letter j })
      let t1 : Tree := { t with nodes := ns }
      do
        let r1 ← trace_string fuel t1 (.exp i) position none
        .ok (2, r1, t1)
    else do
      let r1 ← trace_string fuel t (.exp i) position none
      .ok (1, r1, t)
  | .imp i pos => do
    let nd ← lift? (t.node? i) .indexError
    let letter ← py_get t.string position
    let next_letter ← py_get t.string pos
    if letter = next_letter then
      let op := if nd.edges ≠ [] ∨ pos < position then 3 else 1
      if (nd.edge_end : Int) - (pos : Int) = 1 then .ok (op, .exp i, t)
      else .ok (op, .imp i (pos + 1), t)
    else do
      let p ← lift? nd.parent_node .attrError
      let _ ← lift? (t.node? p) .indexError
      let firstCh ← py_get t.string nd.edge_start
      let j := t.nodes.length
      let k := j + 1
      let middle : NodeData :=
        { mkNode t.string.length p nd.edge_start (some pos) with
            edges := py_dict_set (py_dict_set [] next_letter i) letter k }
      let leaf := mkNode t.string.length j position none
      let ns0 := t.nodes ++ [middle, leaf]
      let ns1 := modifyAt ns0 p (fun d => { d with edges := py_dict_set d.edges firstCh j })
      let ns2 := modifyAt ns1 i (fun d => { d with edge_start := pos, parent_node := some j })
      let t1 : Tree := { t with nodes := ns2 }
      do
        let r1 ← trace_string fuel t1 (.exp j) position none
        .ok (2, r1, t1)

/-- `current_node.is_root` as tested by the construction loop (implicit
nodes carry `is_root = False`). -/
def is_root_ref (t : Tree) (r : Ref) : Bool :=
  match r with
  | .exp i =>
    match t.node? i with
    | some nd => nd.is_root
    | none => false
  | .imp _ _ => false

/-- The inner `while True` loop of `Ukkonen.__init__` (lines 238-245) for one
phase `i`. -/
def inner_loop : Nat → Tree → Ref → Nat → Except Err (Ref × Tree)
  | 0, _, _, _ => .error .fuelOut
  | fuel+1, t, cur, i => do
    let step ← add_edge fuel t cur i
    let op := step.1
    let newRef := step.2.1
    let t1 := step.2.2
    if op = 3 ∨ is_root_ref t1 cur then .ok (newRef, t1)
    else do
      let sl ← ref_suffix_link fuel t1 cur
      match sl.1 with
      | none => .error .attrError
      | some r1 => inner_loop fuel sl.2 r1 i

/-- The outer `for i in xrange(len(string))` loop over the phases. -/
def phases (fuel : Nat) : List Nat → Tree → Ref → Except Err (Ref × Tree)
  | [], t, cur => .ok (cur, t)
  | i :: rest, t, cur => do
    let step ← inner_loop fuel t cur i
    phases fuel rest step.2 step.1

/-- `RootNode.__init__` (note `edge_end` is first defaulted to `len(string)`
by `Node.__init__` and then overwritten with `0`). -/
def rootData : NodeData :=
  { parent_node := none
    edge_start := 0
    edge_end := 0
    edges := []
    suffix_link_memo := none
    is_root := true }

/-- `Ukkonen.__init__(string)`: build the tree, starting each phase from the
reference point the previous phase ended at. -/
def ukkonen (fuel : Nat) (s : List Char) : Except Err Tree := do
  let t0 : Tree := { string := s, nodes := [rootData] }
  let r ← phases fuel (List.range s.length) t0 (.exp 0)
  .ok r.2

/-- `Ukkonen.search(pattern)`: search from the root. -/
def search (fuel : Nat) (t : Tree) (pattern : List Char) : Except Err Bool :=
  search_string fuel t 0 pattern

/-- Reference predicate (not from the source): `p` occurs as a contiguous
substring of `s`. -/
def occurs_at (s p : List Char) (i : Nat) : Bool :=
  decide ((s.drop i).take p.length = p) && decide (i + p.length ≤ s.length)

/-- Reference predicate: naive substring containment. -/
def naive_substring (s p : List Char) : Bool :=
  (List.range (s.length + 1)).any (occurs_at s p)

deriving instance DecidableEq for Except

/-- Forget the memoized suffix link of a node (the only field the lazy
suffix-link getter ever mutates). -/
def strip_memo (d : NodeData) : NodeData :=
  { d with suffix_link_memo := none }

/-- Two arenas agree on everything except possibly the memoized suffix
links. -/
def same_shape (ns ns1 : List NodeData) : Prop :=
  ns1.length = ns.length ∧
    ∀ j, (ns1.get? j).map strip_memo = (ns.get? j).map strip_memo

/-- No node is its own parent. -/
def wf_parent (t : Tree) : Prop :=
  ∀ j nd, t.node? j = some nd → nd.parent_node ≠ some j

/-- The children dictionaries are coherent: keys are pairwise distinct, and
every entry `(k, c)` points to an in-arena node whose `parent_node` is the
owner and whose `edge_start` indexes exactly the character `k` in the
string. -/
def wf_edges (t : Tree) : Prop :=
  ∀ j nd, t.node? j = some nd →
    (nd.edges.map Prod.fst).Nodup ∧
      ∀ kc ∈ nd.edges, kc.2 < t.nodes.length ∧
        ∃ cd, t.node? kc.2 = some cd ∧ cd.parent_node = some j ∧
          t.string.get? cd.edge_start = some kc.1

/-- The construction invariant used for the sibling-uniqueness claim. -/
def wf (t : Tree) : Prop :=
  wf_parent t ∧ wf_edges t

/-- The invariant used for the leaf edge-end claim: every non-root node
with no children stores `edge_end = length of the string`. -/
def leaf_ends (t : Tree) : Prop :=
  ∀ j nd, t.node? j = some nd → nd.is_root = false → nd.edges = [] →
    nd.edge_end = t.string.length

/-- The state of `c2_tree_split` after the loop has computed the suffix
link of the current reference point (the new internal node 2 has memoized
suffix link = root). -/
def c2_tree_linked : Tree :=
  { string := ['a', 'a', 'b', 'a']
    nodes := [
      { parent_node := none, edge_start := 0, edge_end := 0, edges := [('a', 2)],
        suffix_link_memo := none, is_root := true },
      { parent_node := some 2, edge_start := 1, edge_end := 4, edges := [],
        suffix_link_memo := none, is_root := false },
      { parent_node := some 0, edge_start := 0, edge_end := 1, edges := [('a', 1), ('b', 3)],
        suffix_link_memo := some (.exp 0), is_root := false },
      { parent_node := some 2, edge_start := 2, edge_end := 4, edges := [],
        suffix_link_memo := none, is_root := false }] }

/-- Concrete input for the search counterexample: the string `bbbabbaa`. -/
def c1_string : List Char := ['b', 'b', 'b', 'a', 'b', 'b', 'a', 'a']

/-- The state of the construction of `aaba` at the start of phase 2 (after
phases 0 and 1 the reference point is the implicit node one character along
the single leaf edge); reproduced by running `phases 30 [0, 1]` from the
initial tree. -/
def c2_tree : Tree :=
  { string := ['a', 'a', 'b', 'a']
    nodes := [
      { parent_node := none, edge_start := 0, edge_end := 0, edges := [('a', 1)],
        suffix_link_memo := none, is_root := true },
      { parent_node := some 0, edge_start := 0, edge_end := 4, edges := [],
        suffix_link_memo := none, is_root := false }] }

/-- The tree produced from `c2_tree` by the phase-2 split
`add_edge 20 c2_tree (.imp 1 1) 2`: node 2 is the new internal node, node 3
the brand-new leaf. -/
def c2_tree_split : Tree :=
  { string := ['a', 'a', 'b', 'a']
    nodes := [
      { parent_node := none, edge_start := 0, edge_end := 0, edges := [('a', 2)],
        suffix_link_memo := none, is_root := true },
      { parent_node := some 2, edge_start := 1, edge_end := 4, edges := [],
        suffix_link_memo := none, is_root := false },
      { parent_node := some 0, edge_start := 0, edge_end := 1, edges := [('a', 1), ('b', 3)],
        suffix_link_memo := none, is_root := false },
      { parent_node := some 2, edge_start := 2, edge_end := 4, edges := [],
        suffix_link_memo := none, is_root := false }] }

/-- The state of the construction of `ab` at the start of phase 1: node 1 is
a non-root leaf with no children. -/
def c3_tree : Tree :=
  { string := ['a', 'b']
    nodes := [
      { parent_node := none, edge_start := 0, edge_end := 0, edges := [('a', 1)],
        suffix_link_memo := none, is_root := true },
      { parent_node := some 0, edge_start := 0, edge_end := 2, edges := [],
        suffix_link_memo := none, is_root := false }] }

/-- The state of the construction of `aa` at the start of phase 1 (single
leaf covering the whole string, reference point one character along it). -/
def c6_tree : Tree :=
  { string := ['a', 'a']
    nodes := [
      { parent_node := none, edge_start := 0, edge_end := 0, edges := [('a', 1)],
        suffix_link_memo := none, is_root := true },
      { parent_node := some 0, edge_start := 0, edge_end := 2, edges := [],
        suffix_link_memo := none, is_root := false }] }

/-- Concrete input on which construction raises `IndexError`: `cbcbbcba`. -/
def c7_string : List Char := ['c', 'b', 'c', 'b', 'b', 'c', 'b', 'a']

/-- Concrete input whose finished tree has a child with an empty edge label:
`bbbcbbaa`. -/
def c8_string : List Char := ['b', 'b', 'b', 'c', 'b', 'b', 'a', 'a']

/-- Concrete input whose finished tree has 20 non-root explicit nodes,
exceeding the claimed bound 2n - 1 = 19: `aababbabaa`. -/
def c9_string : List Char := ['a', 'a', 'b', 'a', 'b', 'b', 'a', 'b', 'a', 'a']

@[simp]
theorem lift?_some {α : Type} (a : α) (e : Err) : lift? (some a) e = .ok a := rfl

@[simp]
theorem lift?_none {α : Type} (e : Err) : lift? (none : Option α) e = .error e := rfl

@[simp]
theorem except_ok_bind {α β : Type} (a : α) (f : α → Except Err β) :
    (Except.ok a : Except Err α) >>= f = f a := rfl

@[simp]
theorem except_error_bind {α β : Type} (e : Err) (f : α → Except Err β) :
    (Except.error e : Except Err α) >>= f = .error e := rfl

theorem modifyAt_length (ns : List NodeData) (i : Nat) (f : NodeData → NodeData) :
    (modifyAt ns i f).length = ns.length := by
  induction ns generalizing i with
  | nil => rfl
  | cons x xs ih =>
    cases i with
    | zero => rfl
    | succ n => simpa [modifyAt] using ih n

theorem modifyAt_get? (ns : List NodeData) (i j : Nat) (f : NodeData → NodeData) :
    (modifyAt ns i f).get? j = if i = j then (ns.get? j).map f else ns.get? j := by
  induction ns generalizing i j with
  | nil => simp [modifyAt]
  | cons x xs ih =>
    cases i with
    | zero => cases j <;> simp [modifyAt]
    | succ n =>
      cases j with
      | zero => simp [modifyAt]
      | succ m => simpa [modifyAt, Nat.succ_inj] using ih n m

theorem get?_append_lt {α : Type} (l1 l2 : List α) (j : Nat) (h : j < l1.length) :
    (l1 ++ l2).get? j = l1.get? j := by
  induction l1 generalizing j with
  | nil => simp at h
  | cons x xs ih =>
    cases j with
    | zero => rfl
    | succ m => simpa using ih m (by simpa using h)

theorem get?_append_ge {α : Type} (l1 l2 : List α) (j : Nat) (h : l1.length ≤ j) :
    (l1 ++ l2).get? j = l2.get? (j - l1.length) := by
  induction l1 generalizing j with
  | nil => simp
  | cons x xs ih =>
    cases j with
    | zero => simp at h
    | succ m => simpa using ih m (by simpa using h)

theorem py_get_ok_iff (s : List Char) (i : Nat) (c : Char) :
    py_get s i = .ok c ↔ s.get? i = some c := by
  unfold py_get
  cases h : s.get? i <;> simp

theorem py_get_ok_lt {s : List Char} {i : Nat} {c : Char} (h : py_get s i = .ok c) :
    i < s.length := by
  rw [py_get_ok_iff] at h
  exact List.get?_eq_some.mp h |>.1

theorem py_dict_get_some_mem {l : List (Char × Nat)} {k : Char} {v : Nat}
    (h : py_dict_get l k = some v) : (k, v) ∈ l := by
  induction l with
  | nil => simp [py_dict_get] at h
  | cons kv rest ih =>
    obtain ⟨k1, v1⟩ := kv
    by_cases hk : k1 = k
    · subst hk
      simp [py_dict_get] at h
      simp [h]
    · simp [py_dict_get, hk] at h
      exact List.mem_cons_of_mem _ (ih h)

theorem py_dict_get_none_not_mem {l : List (Char × Nat)} {k : Char}
    (h : py_dict_get l k = none) : k ∉ l.map Prod.fst := by
  induction l with
  | nil => simp
  | cons kv rest ih =>
    obtain ⟨k1, v1⟩ := kv
    by_cases hk : k1 = k
    · subst hk; simp [py_dict_get] at h
    · simp [py_dict_get, hk] at h
      simpa [Ne.symm hk] using ih h

theorem py_dict_set_of_get_none {l : List (Char × Nat)} {k : Char} (v : Nat)
    (h : py_dict_get l k = none) : py_dict_set l k v = l ++ [(k, v)] := by
  induction l with
  | nil => rfl
  | cons kv rest ih =>
    obtain ⟨k1, v1⟩ := kv
    by_cases hk : k1 = k
    · subst hk; simp [py_dict_get] at h
    · simp [py_dict_get, hk] at h
      simp [py_dict_set, hk, ih h]

theorem py_dict_set_mem {l : List (Char × Nat)} {k : Char} {v : Nat} {kc : Char × Nat}
    (hnd : (l.map Prod.fst).Nodup) (h : kc ∈ py_dict_set l k v) :
    kc = (k, v) ∨ (kc ∈ l ∧ kc.1 ≠ k) := by
  induction l with
  | nil => simp [py_dict_set] at h; simp [h]
  | cons kv1 rest ih =>
    obtain ⟨k1, v1⟩ := kv1
    simp only [List.map_cons, List.nodup_cons] at hnd
    by_cases hk : k1 = k
    · rcases (by simpa [py_dict_set, if_pos hk] using h : kc = (k, v) ∨ kc ∈ rest) with h1 | h1
      · exact Or.inl h1
      · refine Or.inr ⟨List.mem_cons_of_mem _ h1, ?_⟩
        intro hkc
        exact hnd.1 (by rw [hk, ← hkc]; exact List.mem_map_of_mem Prod.fst h1)
    · rcases (by simpa [py_dict_set, hk] using h : kc = (k1, v1) ∨ kc ∈ py_dict_set rest k v) with h1 | h1
      · exact Or.inr ⟨by simp [h1], by simp [h1, hk]⟩
      · rcases ih hnd.2 h1 with h2 | h2
        · exact Or.inl h2
        · exact Or.inr ⟨List.mem_cons_of_mem _ h2.1, h2.2⟩

theorem py_dict_get_set_self (l : List (Char × Nat)) (k : Char) (v : Nat) :
    py_dict_get (py_dict_set l k v) k = some v := by
  induction l with
  | nil => simp [py_dict_set, py_dict_get]
  | cons kv1 rest ih =>
    obtain ⟨k1, v1⟩ := kv1
    by_cases hk : k1 = k
    · simp [py_dict_set, py_dict_get, if_pos hk]
    · simp [py_dict_set, py_dict_get, hk, ih]

theorem py_dict_set_keys_sub {l : List (Char × Nat)} {k : Char} {v : Nat} {a : Char}
    (h : a ∈ (py_dict_set l k v).map Prod.fst) : a ∈ l.map Prod.fst ∨ a = k := by
  induction l with
  | nil => simp [py_dict_set] at h; simp [h]
  | cons kv1 rest ih =>
    obtain ⟨k1, v1⟩ := kv1
    by_cases hk : k1 = k
    · rcases (by simpa [py_dict_set, if_pos hk] using h : a = k ∨ a ∈ rest.map Prod.fst) with h1 | h1
      · exact Or.inr h1
      · exact Or.inl (by simp [h1])
    · rcases (by simpa [py_dict_set, hk] using h : a = k1 ∨ a ∈ (py_dict_set rest k v).map Prod.fst) with h1 | h1
      · exact Or.inl (by simp [h1])
      · rcases ih h1 with h2 | h2
        · exact Or.inl (by simp [h2])
        · exact Or.inr h2

theorem py_dict_set_nodup {l : List (Char × Nat)} {k : Char} {v : Nat}
    (hnd : (l.map Prod.fst).Nodup) : ((py_dict_set l k v).map Prod.fst).Nodup := by
  induction l with
  | nil => simp [py_dict_set]
  | cons kv1 rest ih =>
    obtain ⟨k1, v1⟩ := kv1
    simp only [List.map_cons, List.nodup_cons] at hnd
    by_cases hk : k1 = k
    · have : ((py_dict_set ((k1, v1) :: rest) k v).map Prod.fst) = k :: rest.map Prod.fst := by
        simp [py_dict_set, if_pos hk]
      rw [this]
      exact List.nodup_cons.mpr ⟨hk ▸ hnd.1, hnd.2⟩
    · have h1 : k1 ∉ (py_dict_set rest k v).map Prod.fst := by
        intro hmem
        rcases py_dict_set_keys_sub hmem with h2 | h2
        · exact hnd.1 h2
        · exact hk h2
      have : ((py_dict_set ((k1, v1) :: rest) k v).map Prod.fst) = k1 :: (py_dict_set rest k v).map Prod.fst := by
        simp [py_dict_set, hk]
      rw [this]
      exact List.nodup_cons.mpr ⟨h1, ih hnd.2⟩

theorem except_bind_ok_eq_map {α β : Type} (x : Except Err α) (f : α → β) :
    (x >>= fun a => Except.ok (f a)) = x.map f := by
  cases x <;> rfl

theorem add_edge_exp_reduce (fuel : Nat) (t : Tree) (i : Nat) (nd : NodeData)
    (position : Nat) (letter : Char)
    (hnd : t.node? i = some nd) (hlet : py_get t.string position = .ok letter) :
    add_edge fuel t (.exp i) position =
      if (py_dict_get nd.edges letter).isSome then
        (trace_string fuel t (.exp i) position none).map (fun r => (3, r, t))
      else if nd.edges ≠ [] ∨ nd.is_root then
        (trace_string fuel
            (Tree.mk t.string
              (modifyAt (t.nodes ++ [mkNode t.string.length i position none]) i
                (fun d => { d with edges := py_dict_set d.edges letter t.nodes.length })))
            (.exp i) position none).map (fun r => (2, r,
          Tree.mk t.string
            (modifyAt (t.nodes ++ [mkNode t.string.length i position none]) i
              (fun d => { d with edges := py_dict_set d.edges letter t.nodes.length }))))
      else
        (trace_string fuel t (.exp i) position none).map (fun r => (1, r, t)) := by
  simp only [add_edge, hnd, lift?_some, except_ok_bind, hlet, except_bind_ok_eq_map]

-- one-step trace along a fresh leaf edge: the generic situation where node i's
-- dictionary maps `letter` to node j whose record is a leaf [position, n)
theorem trace_one_step_new_leaf (fuel : Nat) (t1 : Tree) (i j position : Nat)
    (nd1 : NodeData) (letter : Char)
    (hnd1 : t1.node? i = some nd1)
    (hlet : py_get t1.string position = .ok letter)
    (hget : py_dict_get nd1.edges letter = some j)
    (hj : t1.node? j = some (mkNode t1.string.length i position none)) :
    trace_string (fuel+2) t1 (.exp i) position none =
      .ok (if position + 1 = t1.string.length then Ref.exp j
           else Ref.imp j (position + 1)) := by
  have hlt : position < t1.string.length := py_get_ok_lt hlet
  rw [show fuel + 2 = (fuel+1)+1 from rfl]
  simp only [trace_string, py_end]
  rw [if_neg (by omega : ¬ position = position + 1)]
  simp only [hnd1, lift?_some, except_ok_bind, hlet, hget, hj, mkNode, py_default_end,
    edgeLength]
  by_cases hend : position + 1 = t1.string.length
  · rw [if_pos (by push_cast; omega)]
    rw [if_neg (by omega)]
    rw [if_pos (by omega : position + t1.string.length - position = position + 1)]
    rw [if_pos hend]
  · rw [if_neg (by push_cast; omega)]
    rw [if_neg (by omega)]
    rw [show position + (position + 1) - position = position + 1 by omega]
    rw [if_neg hend]

/-- The finished tree that `ukkonen 30 "ab"` produces (checked by
evaluation), used by witnesses. -/
def c10_tree : Tree :=
  { string := ['a', 'b']
    nodes := [
      { parent_node := none, edge_start := 0, edge_end := 0, edges := [('a', 1), ('b', 2)],
        suffix_link_memo := none, is_root := true },
      { parent_node := some 0, edge_start := 0, edge_end := 2, edges := [],
        suffix_link_memo := none, is_root := false },
      { parent_node := some 0, edge_start := 1, edge_end := 2, edges := [],
        suffix_link_memo := none, is_root := false }] }

/-- C1: the search answer is not substring containment.  For the input
string `bbbabbaa` the finished tree answers `search("baa") = false`
although `baa` occurs (twice) as a contiguous substring of the input,
because the reversed subtraction in `ImplicitNode.trace_string` corrupts a
suffix-link target during construction and a suffix is never inserted. -/
theorem c1_search_misses_substring :
    (ukkonen 30 c1_string).bind (fun t => search 30 t ['b', 'a', 'a']) = .ok false ∧
      naive_substring c1_string ['b', 'a', 'a'] = true := by
  decide

/-- C6: `ImplicitNode.trace_string` compares `start - end` (always negative
for a real range) instead of `end - start` with the remaining edge length,
so it never consumes the rest of the edge.  From the implicit reference one
character along the edge `aa` (one remaining character), tracing the
existing one-character range `[0, 1)` must reach the explicit node (consume
the edge exactly), but the code returns an implicit reference whose
position equals the edge end. -/
theorem c6_trace_reversed_comparison :
    trace_string 10 c6_tree (.imp 1 1) 0 (some 1) = .ok (.imp 1 2) ∧
      Ref.imp 1 2 ≠ Ref.exp 1 := by
  decide

/-- C7: construction is not fault-free: on the input `cbcbbcba` the
constructor raises `IndexError` (a position beyond the end of the string is
indexed while following a corrupted suffix-link target).  The empty-string
part of the claim does hold: the empty input yields a root-only tree on
which every non-empty pattern search returns `false`. -/
theorem c7_construction_raises :
    ukkonen 30 c7_string = .error .indexError ∧
      ukkonen 30 [] = .ok { string := [], nodes := [rootData] } ∧
      ∀ (c : Char) (p : List Char),
        search 5 { string := [], nodes := [rootData] } (c :: p) = .ok false :=
  ⟨by decide, by decide, fun _ _ => rfl⟩

/-- C9: the finished tree for the length-10 input `aababbabaa` has 21 nodes
in the arena, i.e. 20 explicit non-root nodes, exceeding the claimed bound
2n - 1 = 19. -/
theorem c9_node_bound_exceeded :
    (ukkonen 30 c9_string).map (fun t => t.nodes.length) = .ok 21 ∧
      c9_string.length = 10 ∧ 2 * 10 - 1 < 21 - 1 := by
  decide

/-- C2 counterexample: in phase 2 of the construction of `aaba` the split
produces the new reference `.imp 3 3` (one character along the brand-new
leaf 3), but the loop does not advance to the suffix link of that produced
reference: it advances to the suffix link of the current reference point
`.imp 1 1`, which is the root; the suffix link of the produced reference
cannot even be computed (KeyError).  The loop then continues from the root
and the phase ends at `.imp 4 3`. -/
theorem c2_counterexample :
    add_edge 20 c2_tree (.imp 1 1) 2 = .ok (2, .imp 3 3, c2_tree_split) ∧
      (ref_suffix_link 20 c2_tree_split (.imp 1 1)).map (fun x => x.1) = .ok (some (.exp 0)) ∧
      ref_suffix_link 20 c2_tree_split (.imp 3 3) = .error .keyError ∧
      (inner_loop 21 c2_tree (.imp 1 1) 2).map (fun x => x.1) = .ok (.imp 4 3) := by
  refine ⟨by decide, by decide, by decide, by decide⟩

/-- C2 (amended): one step of the phase's inner loop.  If `add_edge(i)`
reports already-present (rule 3) or the current reference point is the
root, the loop ends and the returned reference becomes the next phase's
starting reference point; otherwise the loop advances to the suffix link of
the *current reference point* (the node the extension was applied at — not
of the reference just produced) and repeats `add_edge(i)` from there. -/
theorem c2_loop_rule (fuel : Nat) (t : Tree) (cur : Ref) (i op : Nat) (nr : Ref) (t1 : Tree)
    (h : add_edge fuel t cur i = .ok (op, nr, t1)) :
    ((op = 3 ∨ is_root_ref t1 cur = true) → inner_loop (fuel+1) t cur i = .ok (nr, t1)) ∧
      (op ≠ 3 → is_root_ref t1 cur = false →
        ∀ sl t2, ref_suffix_link fuel t1 cur = .ok (some sl, t2) →
          inner_loop (fuel+1) t cur i = inner_loop fuel t2 sl i) ∧
      (∀ rest, phases (fuel+1) (i :: rest) t cur =
        (inner_loop (fuel+1) t cur i).bind (fun st => phases (fuel+1) rest st.2 st.1)) := by
  refine ⟨?_, ?_, fun rest => rfl⟩
  · intro h1
    simp only [inner_loop, h, except_ok_bind]
    rw [if_pos (by simpa using h1)]
  · intro h2 h3 sl t2 hsl
    simp only [inner_loop, h, except_ok_bind]
    rw [if_neg (by simp [h2, h3]), hsl]
    rfl

/-- Witness for `c2_loop_rule` at the phase-2 split state of `aaba`: the
hypotheses are discharged by evaluation and the loop step is the suffix
link of the current reference point. -/
theorem c2_loop_rule_witness :
    inner_loop 21 c2_tree (.imp 1 1) 2 = inner_loop 20 c2_tree_linked (.exp 0) 2 :=
  (c2_loop_rule 20 c2_tree (.imp 1 1) 2 2 (.imp 3 3) c2_tree_split (by decide)).2.1
    (by decide) (by decide) (.exp 0) c2_tree_linked (by decide)

/-- C3 counterexample: on a non-root leaf with no children (node 1 of the
phase-1 state of `ab`), `add_edge` does not return
`(LEAF_EXTENDED, this same node)`: the rule-1 branch computes its return
reference with `self.trace_string(position)`, which raises `KeyError`
because the childless node has no outgoing edge. -/
theorem c3_counterexample :
    add_edge 10 c3_tree (.exp 1) 1 = .error .keyError ∧
      add_edge 10 c3_tree (.exp 1) 1 ≠ .ok (1, .exp 1, c3_tree) := by
  refine ⟨by decide, by decide⟩

/-- C3 (amended): `Node.add_edge(position)` on an explicit node.  If the
node already has a child edge starting with `string[position]`, nothing is
mutated and the result is `(ALREADY_PRESENT, trace of one step along that
edge)`.  Else, if the node has children or is the root, a new leaf child
edge starting at `position` is created and the result is `(NEW_BRANCH, the
reference one step along the new edge: the new leaf itself when `position`
is the last position, else an implicit reference one character into the new
leaf's edge)` — not the new leaf node itself in general.  Else (a non-root
leaf with no children) nothing is mutated, but instead of returning
`(LEAF_EXTENDED, this same node)` the call raises `KeyError` while tracing
one step for the return value, because a childless node has no outgoing
edge for the letter. -/
theorem c3_add_edge_rule (fuel : Nat) (t : Tree) (i : Nat) (nd : NodeData)
    (position : Nat) (letter : Char)
    (hnd : t.node? i = some nd) (hlet : py_get t.string position = .ok letter) :
    ((py_dict_get nd.edges letter).isSome = true →
       add_edge (fuel+2) t (.exp i) position =
         (trace_string (fuel+2) t (.exp i) position none).map (fun r => (3, r, t))) ∧
      (py_dict_get nd.edges letter = none → (nd.edges ≠ [] ∨ nd.is_root = true) →
        add_edge (fuel+2) t (.exp i) position =
          .ok (2,
            (if position + 1 = t.string.length then Ref.exp t.nodes.length
             else Ref.imp t.nodes.length (position + 1)),
            Tree.mk t.string
              (modifyAt (t.nodes ++ [mkNode t.string.length i position none]) i
                (fun d => { d with edges := py_dict_set d.edges letter t.nodes.length })))) ∧
      (py_dict_get nd.edges letter = none → nd.edges = [] → nd.is_root = false →
        add_edge (fuel+2) t (.exp i) position = .error .keyError) := by
  have hred := add_edge_exp_reduce (fuel+2) t i nd position letter hnd hlet
  have hi : i < t.nodes.length := (List.get?_eq_some.mp hnd).1
  refine ⟨?_, ?_, ?_⟩
  · intro h1
    rw [hred, if_pos h1]
  · intro h1 h2
    rw [hred, if_neg (by simp [h1]), if_pos (by simpa using h2)]
    have hnd1 : (Tree.mk t.string
        (modifyAt (t.nodes ++ [mkNode t.string.length i position none]) i
          (fun d => { d with edges := py_dict_set d.edges letter t.nodes.length }))).node? i =
        some { nd with edges := py_dict_set nd.edges letter t.nodes.length } := by
      show (modifyAt _ i _).get? i = _
      rw [modifyAt_get?, if_pos rfl, get?_append_lt _ _ _ hi,
        show t.nodes.get? i = some nd from hnd]
      rfl
    have hleaf : (Tree.mk t.string
        (modifyAt (t.nodes ++ [mkNode t.string.length i position none]) i
          (fun d => { d with edges := py_dict_set d.edges letter t.nodes.length }))).node?
          t.nodes.length = some (mkNode t.string.length i position none) := by
      show (modifyAt _ i _).get? _ = _
      rw [modifyAt_get?, if_neg (Nat.ne_of_lt hi), get?_append_ge _ _ _ (Nat.le_refl _)]
      simp
    have htr := trace_one_step_new_leaf fuel
      (Tree.mk t.string
        (modifyAt (t.nodes ++ [mkNode t.string.length i position none]) i
          (fun d => { d with edges := py_dict_set d.edges letter t.nodes.length })))
      i t.nodes.length position
      { nd with edges := py_dict_set nd.edges letter t.nodes.length } letter
      hnd1 hlet (py_dict_get_set_self nd.edges letter t.nodes.length) hleaf
    rw [htr]
    rfl
  · intro h1 h2 h3
    rw [hred, if_neg (by simp [h1]), if_neg (by simp [h2, h3])]
    have htr : trace_string (fuel+2) t (.exp i) position none = .error .keyError := by
      rw [show fuel + 2 = (fuel+1)+1 from rfl]
      simp only [trace_string, py_end]
      rw [if_neg (by omega : ¬ position = position + 1)]
      simp only [hnd, lift?_some, except_ok_bind, hlet, h2, py_dict_get, lift?_none,
        except_error_bind]
    rw [htr]
    rfl

/-- Witness for `c3_add_edge_rule` at the phase-1 state of `ab`: node 0
(the root) has an `a` child, so position 0 exercises the rule-3 branch. -/
theorem c3_add_edge_rule_witness :
    (py_dict_get [('a', 1)] 'a').isSome = true ∧
      add_edge 12 c3_tree (.exp 0) 0 =
        (trace_string 12 c3_tree (.exp 0) 0 none).map (fun r => (3, r, c3_tree)) :=
  ⟨by decide,
    (c3_add_edge_rule 10 c3_tree 0 (NodeData.mk none 0 0 [('a', 1)] none true) 0 'a'
      (by decide) (by decide)).1 (by decide)⟩

/-- C4 counterexample: the phase-2 split of `aaba` returns the reference
`.imp 3 3`, an implicit reference one character along the brand-new leaf
(node 3, edge `[2, 4)`), not the new leaf node itself: tracing one step
from the new internal node stops inside the leaf edge whenever that edge is
longer than one character. -/
theorem c4_counterexample :
    add_edge 20 c2_tree (.imp 1 1) 2 = .ok (2, .imp 3 3, c2_tree_split) ∧
      c2_tree_split.node? 3 = some (NodeData.mk (some 2) 2 4 [] none false) ∧
      Ref.imp 3 3 ≠ Ref.exp 3 := by
  refine ⟨by decide, by decide, by decide⟩

theorem py_default_end_pos (e len : Nat) (h : e ≠ 0) : py_default_end (some e) len = e := by
  cases e with
  | zero => exact absurd rfl h
  | succ m => rfl


/-- C4 (amended): `ImplicitNode.add_edge(position)` on a mismatch splits the
edge exactly as the claim describes — new internal node covering
`[edge_start, offset)`, original node re-linked under it with its edge
shortened to start at the split point and its parent re-set, brand-new leaf
for `position` as the other child, parent's child entry redirected — and
returns `(NEW_BRANCH, the reference obtained by tracing one step from the
new internal node)`: that reference is the new leaf node itself only when
`position` is the last string position, otherwise it is an implicit
reference one character along the new leaf's edge. -/
theorem c4_split_rule (fuel : Nat) (t : Tree) (i pos : Nat) (nd : NodeData)
    (position p : Nat) (pd : NodeData) (letter next_letter firstCh : Char)
    (hnd : t.node? i = some nd) (hl : py_get t.string position = .ok letter)
    (hn : py_get t.string pos = .ok next_letter) (hne : letter ≠ next_letter)
    (hp : nd.parent_node = some p) (hpd : t.node? p = some pd)
    (hfc : py_get t.string nd.edge_start = .ok firstCh)
    (hpos0 : pos ≠ 0) (hpi : p ≠ i) :
    ∃ t1, add_edge (fuel+2) t (.imp i pos) position =
        .ok (2, (if position + 1 = t.string.length then Ref.exp (t.nodes.length + 1)
                 else Ref.imp (t.nodes.length + 1) (position + 1)), t1) ∧
      t1.string = t.string ∧
      t1.nodes.length = t.nodes.length + 2 ∧
      t1.node? t.nodes.length = some (NodeData.mk (some p) nd.edge_start pos
        [(next_letter, i), (letter, t.nodes.length + 1)] none false) ∧
      t1.node? (t.nodes.length + 1) = some (NodeData.mk (some t.nodes.length) position
        t.string.length [] none false) ∧
      t1.node? i = some (NodeData.mk (some t.nodes.length) pos nd.edge_end nd.edges
        nd.suffix_link_memo nd.is_root) ∧
      t1.node? p = some (NodeData.mk pd.parent_node pd.edge_start pd.edge_end
        (py_dict_set pd.edges firstCh t.nodes.length) pd.suffix_link_memo pd.is_root) := by
  have hi : i < t.nodes.length := (List.get?_eq_some.mp hnd).1
  have hplt : p < t.nodes.length := (List.get?_eq_some.mp hpd).1
  have hdict : py_dict_set (py_dict_set [] next_letter i) letter (t.nodes.length + 1) =
      [(next_letter, i), (letter, t.nodes.length + 1)] := by
    simp [py_dict_set, Ne.symm hne]
  have hmidn : (Tree.mk t.string
      (modifyAt (modifyAt (t.nodes ++ [{ mkNode t.string.length p nd.edge_start (some pos) with
          edges := [(next_letter, i), (letter, t.nodes.length + 1)] },
          mkNode t.string.length t.nodes.length position none]) p
        (fun d => { d with edges := py_dict_set d.edges firstCh t.nodes.length })) i
        (fun d => { d with edge_start := pos, parent_node := some t.nodes.length }))).node?
      t.nodes.length = some (NodeData.mk (some p) nd.edge_start pos
        [(next_letter, i), (letter, t.nodes.length + 1)] none false) := by
    show (modifyAt _ i _).get? _ = _
    rw [modifyAt_get?, if_neg (Nat.ne_of_lt hi), modifyAt_get?, if_neg (Nat.ne_of_lt hplt),
      get?_append_ge _ _ _ (Nat.le_refl _)]
    simp [mkNode, py_default_end_pos _ _ hpos0]
  have hleafn : (Tree.mk t.string
      (modifyAt (modifyAt (t.nodes ++ [{ mkNode t.string.length p nd.edge_start (some pos) with
          edges := [(next_letter, i), (letter, t.nodes.length + 1)] },
          mkNode t.string.length t.nodes.length position none]) p
        (fun d => { d with edges := py_dict_set d.edges firstCh t.nodes.length })) i
        (fun d => { d with edge_start := pos, parent_node := some t.nodes.length }))).node?
      (t.nodes.length + 1) = some (mkNode t.string.length t.nodes.length position none) := by
    show (modifyAt _ i _).get? _ = _
    rw [modifyAt_get?, if_neg (by omega), modifyAt_get?, if_neg (by omega),
      get?_append_ge _ _ _ (by omega)]
    simp [show t.nodes.length + 1 - t.nodes.length = 1 from by omega]
  have hin : (Tree.mk t.string
      (modifyAt (modifyAt (t.nodes ++ [{ mkNode t.string.length p nd.edge_start (some pos) with
          edges := [(next_letter, i), (letter, t.nodes.length + 1)] },
          mkNode t.string.length t.nodes.length position none]) p
        (fun d => { d with edges := py_dict_set d.edges firstCh t.nodes.length })) i
        (fun d => { d with edge_start := pos, parent_node := some t.nodes.length }))).node?
      i = some (NodeData.mk (some t.nodes.length) pos nd.edge_end nd.edges
        nd.suffix_link_memo nd.is_root) := by
    show (modifyAt _ i _).get? _ = _
    rw [modifyAt_get?, if_pos rfl, modifyAt_get?, if_neg hpi,
      get?_append_lt _ _ _ hi, show t.nodes.get? i = some nd from hnd]
    rfl
  have hpn : (Tree.mk t.string
      (modifyAt (modifyAt (t.nodes ++ [{ mkNode t.string.length p nd.edge_start (some pos) with
          edges := [(next_letter, i), (letter, t.nodes.length + 1)] },
          mkNode t.string.length t.nodes.length position none]) p
        (fun d => { d with edges := py_dict_set d.edges firstCh t.nodes.length })) i
        (fun d => { d with edge_start := pos, parent_node := some t.nodes.length }))).node?
      p = some (NodeData.mk pd.parent_node pd.edge_start pd.edge_end
        (py_dict_set pd.edges firstCh t.nodes.length) pd.suffix_link_memo pd.is_root) := by
    show (modifyAt _ i _).get? _ = _
    rw [modifyAt_get?, if_neg (Ne.symm hpi), modifyAt_get?, if_pos rfl,
      get?_append_lt _ _ _ hplt, show t.nodes.get? p = some pd from hpd]
    rfl
  have hlen : (Tree.mk t.string
      (modifyAt (modifyAt (t.nodes ++ [{ mkNode t.string.length p nd.edge_start (some pos) with
          edges := [(next_letter, i), (letter, t.nodes.length + 1)] },
          mkNode t.string.length t.nodes.length position none]) p
        (fun d => { d with edges := py_dict_set d.edges firstCh t.nodes.length })) i
        (fun d => { d with edge_start := pos, parent_node := some t.nodes.length }))).nodes.length =
      t.nodes.length + 2 := by
    show (modifyAt _ i _).length = _
    rw [modifyAt_length, modifyAt_length]
    simp
  refine ⟨Tree.mk t.string
      (modifyAt (modifyAt (t.nodes ++ [{ mkNode t.string.length p nd.edge_start (some pos) with
          edges := [(next_letter, i), (letter, t.nodes.length + 1)] },
          mkNode t.string.length t.nodes.length position none]) p
        (fun d => { d with edges := py_dict_set d.edges firstCh t.nodes.length })) i
        (fun d => { d with edge_start := pos, parent_node := some t.nodes.length })),
    ?_, rfl, hlen, hmidn, hleafn, hin, hpn⟩
  have hget : py_dict_get [(next_letter, i), (letter, t.nodes.length + 1)] letter =
      some (t.nodes.length + 1) := by
    simp [py_dict_get, Ne.symm hne]
  have htr := trace_one_step_new_leaf fuel
    (Tree.mk t.string
      (modifyAt (modifyAt (t.nodes ++ [{ mkNode t.string.length p nd.edge_start (some pos) with
          edges := [(next_letter, i), (letter, t.nodes.length + 1)] },
          mkNode t.string.length t.nodes.length position none]) p
        (fun d => { d with edges := py_dict_set d.edges firstCh t.nodes.length })) i
        (fun d => { d with edge_start := pos, parent_node := some t.nodes.length })))
    t.nodes.length (t.nodes.length + 1) position
    (NodeData.mk (some p) nd.edge_start pos
      [(next_letter, i), (letter, t.nodes.length + 1)] none false) letter
    hmidn hl hget hleafn
  simp only [add_edge, hnd, lift?_some, except_ok_bind, hl, hn, if_neg hne, hp, hpd,
    hfc, hdict]
  rw [htr]
  rfl

/-- Witness for `c4_split_rule` at the phase-2 state of `aaba`. -/
theorem c4_split_rule_witness :
    ∃ t1, add_edge 20 c2_tree (.imp 1 1) 2 =
        .ok (2, (if 2 + 1 = c2_tree.string.length then Ref.exp (c2_tree.nodes.length + 1)
                 else Ref.imp (c2_tree.nodes.length + 1) (2 + 1)), t1) ∧
      t1.string = c2_tree.string ∧
      t1.nodes.length = 4 ∧
      t1.node? 2 = some (NodeData.mk (some 0) 0 1 [('a', 1), ('b', 3)] none false) ∧
      t1.node? 3 = some (NodeData.mk (some 2) 2 4 [] none false) ∧
      t1.node? 1 = some (NodeData.mk (some 2) 1 4 [] none false) ∧
      t1.node? 0 = some (NodeData.mk none 0 0 (py_dict_set [('a', 1)] 'a' 2) none true) :=
  c4_split_rule 18 c2_tree 1 1 (NodeData.mk (some 0) 0 4 [] none false) 2 0
    (NodeData.mk none 0 0 [('a', 1)] none true) 'b' 'a' 'a'
    (by decide) (by decide) (by decide) (by decide) (by decide) (by decide)
    (by decide) (by decide) (by decide)

theorem same_shape_refl (ns : List NodeData) : same_shape ns ns := ⟨rfl, fun _ => rfl⟩

theorem same_shape_trans {a b c : List NodeData} (h1 : same_shape a b) (h2 : same_shape b c) :
    same_shape a c :=
  ⟨h2.1.trans h1.1, fun j => (h2.2 j).trans (h1.2 j)⟩

theorem setMemo_shape (t : Tree) (i : Nat) (r : Ref) :
    same_shape t.nodes (setMemo t i r).nodes := by
  refine ⟨modifyAt_length _ _ _, fun j => ?_⟩
  show ((modifyAt t.nodes i _).get? j).map _ = _
  rw [modifyAt_get?]
  by_cases hij : i = j
  · rw [if_pos hij]
    cases t.nodes.get? j <;> simp [strip_memo]
  · rw [if_neg hij]

theorem get_suffix_link_spec :
    ∀ (fuel : Nat) (t : Tree) (i : Nat) (o : Option Ref) (t1 : Tree),
      get_suffix_link fuel t i = .ok (o, t1) →
      (t1.string = t.string ∧ same_shape t.nodes t1.nodes) ∧
        ∀ nd, t.node? i = some nd → (o = none ↔ nd.is_root = true) := by
  intro fuel
  induction fuel with
  | zero =>
    intro t i o t1 h
    exact absurd h (by simp [get_suffix_link])
  | succ fuel ih =>
    intro t i o t1 h
    simp only [get_suffix_link] at h
    cases hnd : t.node? i with
    | none => rw [hnd] at h; simp [lift?_none] at h
    | some nd =>
      rw [hnd] at h
      simp only [lift?_some, except_ok_bind] at h
      by_cases hroot : nd.is_root
      · rw [if_pos hroot] at h
        have hpair := Except.ok.inj h
        have ho : o = none := (congrArg Prod.fst hpair).symm
        have h2 : t1 = t := (congrArg Prod.snd hpair).symm
        subst h2
        refine ⟨⟨rfl, same_shape_refl _⟩, fun nd2 hnd2 => ?_⟩
        cases hnd2
        simp [ho, hroot]
      · rw [if_neg hroot] at h
        cases hm : nd.suffix_link_memo with
        | some r =>
          rw [hm] at h
          have hpair := Except.ok.inj h
          have ho : o = some r := (congrArg Prod.fst hpair).symm
          have h2 : t1 = t := (congrArg Prod.snd hpair).symm
          subst h2
          refine ⟨⟨rfl, same_shape_refl _⟩, fun nd2 hnd2 => ?_⟩
          cases hnd2
          simp [ho, hroot]
        | none =>
          rw [hm] at h
          cases hp : nd.parent_node with
          | none => rw [hp] at h; simp [lift?_none] at h
          | some p =>
            rw [hp] at h
            simp only [lift?_some, except_ok_bind] at h
            cases hrec : get_suffix_link fuel t p with
            | error e => rw [hrec] at h; simp at h
            | ok pr =>
              obtain ⟨psl0, tmid⟩ := pr
              rw [hrec] at h
              simp only [except_ok_bind] at h
              obtain ⟨⟨hstr, hshape⟩, -⟩ := ih t p psl0 tmid hrec
              cases hnd1 : tmid.node? i with
              | none => rw [hnd1] at h; simp [lift?_none] at h
              | some nd1 =>
                rw [hnd1] at h
                simp only [lift?_some, except_ok_bind] at h
                have hfin : ∀ (r : Ref),
                    (Except.ok (some r, setMemo tmid i r) : Except Err (Option Ref × Tree)) =
                      Except.ok (o, t1) →
                    (t1.string = t.string ∧ same_shape t.nodes t1.nodes) ∧
                      ∀ nd2, some nd = some nd2 → (o = none ↔ nd2.is_root = true) := by
                  intro r hr
                  have hpair := Except.ok.inj hr
                  have ho : o = some r := (congrArg Prod.fst hpair).symm
                  have ht1 : t1 = setMemo tmid i r := (congrArg Prod.snd hpair).symm
                  subst ht1
                  refine ⟨⟨hstr, same_shape_trans hshape (setMemo_shape tmid i r)⟩,
                    fun nd2 hnd2 => ?_⟩
                  cases hnd2
                  simp [ho, hroot]
                cases psl0 with
                | none =>
                  simp only [] at h
                  cases htr : trace_string fuel tmid (.exp p) (nd1.edge_start + 1)
                      (some nd1.edge_end) with
                  | error e => rw [htr] at h; simp at h
                  | ok r =>
                    rw [htr] at h
                    simp only [except_ok_bind] at h
                    exact hfin r h
                | some q =>
                  simp only [] at h
                  cases htr : trace_string fuel tmid q nd1.edge_start (some nd1.edge_end) with
                  | error e => rw [htr] at h; simp at h
                  | ok r =>
                    rw [htr] at h
                    simp only [except_ok_bind] at h
                    exact hfin r h

theorem strip_memo_fields {d d1 : NodeData} (h : strip_memo d1 = strip_memo d) :
    d1.parent_node = d.parent_node ∧ d1.edge_start = d.edge_start ∧
      d1.edge_end = d.edge_end ∧ d1.edges = d.edges ∧ d1.is_root = d.is_root := by
  cases d
  cases d1
  simp only [strip_memo, NodeData.mk.injEq, true_and, and_true] at h
  exact ⟨h.1, h.2.1, h.2.2.1, h.2.2.2.1, h.2.2.2.2⟩

theorem same_shape_node?_rev {ns ns1 : List NodeData} (hs : same_shape ns ns1) {j : Nat}
    {d : NodeData} (h : ns.get? j = some d) :
    ∃ d1, ns1.get? j = some d1 ∧ strip_memo d1 = strip_memo d := by
  have h2 := hs.2 j
  rw [h] at h2
  cases h1 : ns1.get? j with
  | none => rw [h1] at h2; simp at h2
  | some d1 =>
    rw [h1] at h2
    simp at h2
    exact ⟨d1, rfl, h2⟩

/-- C5: the suffix-link computation rule.  For an explicit non-root node
`i` with parent `p`: reading the parent's `suffix_link` property yields
`none` exactly when the parent is the root, and then
`_calculate_suffix_link` traces from the parent itself over
`[edge_start + 1, edge_end)`; otherwise it traces from the parent's suffix
link over `[edge_start, edge_end)`.  The identical rule holds for
`ImplicitNode.suffix_link` with the range truncated at the implicit offset
`pos` instead of `edge_end` (the node fields are read from the tree `t1`
after the parent's suffix link has been memoized; memoization changes no
other field). -/
theorem c5_suffix_link_rule (fuel : Nat) (t : Tree) (i pos p : Nat) (nd pd nd1 : NodeData)
    (psl : Option Ref) (t1 : Tree)
    (hnd : t.node? i = some nd) (_hroot : nd.is_root = false) (hp : nd.parent_node = some p)
    (hpd : t.node? p = some pd) (hsl : get_suffix_link fuel t p = .ok (psl, t1))
    (hnd1 : t1.node? i = some nd1) :
    (pd.is_root = true →
      psl = none ∧
      calc_suffix_link fuel t i =
        (trace_string fuel t1 (.exp p) (nd1.edge_start + 1) (some nd1.edge_end)).map
          (fun r => (r, t1)) ∧
      implicit_suffix_link fuel t i pos =
        (trace_string fuel t1 (.exp p) (nd1.edge_start + 1) (some pos)).map
          (fun r => (r, t1))) ∧
    (pd.is_root = false →
      ∃ q, psl = some q ∧
        calc_suffix_link fuel t i =
          (trace_string fuel t1 q nd1.edge_start (some nd1.edge_end)).map (fun r => (r, t1)) ∧
        implicit_suffix_link fuel t i pos =
          (trace_string fuel t1 q nd1.edge_start (some pos)).map (fun r => (r, t1))) := by
  obtain ⟨⟨hstr, hshape⟩, hiff⟩ := get_suffix_link_spec fuel t p psl t1 hsl
  have hiff2 := hiff pd hpd
  constructor
  · intro hpdroot
    have hnone : psl = none := hiff2.mpr hpdroot
    subst hnone
    obtain ⟨pd1, hpd1, hstrip⟩ := same_shape_node?_rev hshape hpd
    have hpd1n : t1.node? p = some pd1 := hpd1
    have hpd1root : pd1.is_root = true := by
      rw [(strip_memo_fields hstrip).2.2.2.2, hpdroot]
    refine ⟨rfl, ?_, ?_⟩
    · simp only [calc_suffix_link, hnd, lift?_some, except_ok_bind, hp, hsl, hnd1]
      exact except_bind_ok_eq_map _ _
    · simp only [implicit_suffix_link, hnd, lift?_some, except_ok_bind, hp, hsl, hnd1,
        hpd1n, if_pos hpd1root]
      exact except_bind_ok_eq_map _ _
  · intro hpdroot
    have hsome : psl ≠ none := fun hh => by rw [hiff2.mp hh] at hpdroot; cases hpdroot
    cases psl with
    | none => exact absurd rfl hsome
    | some q =>
      refine ⟨q, rfl, ?_, ?_⟩
      · simp only [calc_suffix_link, hnd, lift?_some, except_ok_bind, hp, hsl, hnd1]
        exact except_bind_ok_eq_map _ _
      · simp only [implicit_suffix_link, hnd, lift?_some, except_ok_bind, hp, hsl, hnd1]
        exact except_bind_ok_eq_map _ _

/-- Witness for `c5_suffix_link_rule` on the phase-1 state of `ab` (node 1,
parent = root). -/
theorem c5_suffix_link_rule_witness :
    (none : Option Ref) = none ∧
      calc_suffix_link 10 c3_tree 1 =
        (trace_string 10 c3_tree (.exp 0) (0 + 1) (some 2)).map (fun r => (r, c3_tree)) ∧
      implicit_suffix_link 10 c3_tree 1 1 =
        (trace_string 10 c3_tree (.exp 0) (0 + 1) (some 1)).map (fun r => (r, c3_tree)) :=
  (c5_suffix_link_rule 10 c3_tree 1 1 0 (NodeData.mk (some 0) 0 2 [] none false)
      (NodeData.mk none 0 0 [('a', 1)] none true) (NodeData.mk (some 0) 0 2 [] none false)
      none c3_tree (by decide) (by decide) (by decide) (by decide) (by decide)
      (by decide)).1 (by decide)

/-- C8 counterexample: in the finished tree for `bbbcbbaa`, explicit node 4
has the child node 8 under key `b`, but node 8's stored edge label is the
range `[1, 1)`, the empty string — the key is not the first character of
that child's stored edge label. -/
theorem c8_counterexample :
    (ukkonen 30 c8_string).map (fun t =>
      ((t.node? 4).map (fun nd => py_dict_get nd.edges 'b'),
       (t.node? 8).map (fun nd => (nd.edge_start, nd.edge_end)))) =
      .ok (some (some 8), some (1, 1)) := by
  decide

theorem add_edge_cases (fuel : Nat) (t : Tree) (r : Ref) (position op : Nat) (nr : Ref)
    (t1 : Tree) (h : add_edge fuel t r position = .ok (op, nr, t1)) :
    t1 = t ∨
    (∃ i nd letter, r = .exp i ∧ t.node? i = some nd ∧
      py_get t.string position = .ok letter ∧
      py_dict_get nd.edges letter = none ∧ (nd.edges ≠ [] ∨ nd.is_root = true) ∧
      t1 = Tree.mk t.string
        (modifyAt (t.nodes ++ [mkNode t.string.length i position none]) i
          (fun d => { d with edges := py_dict_set d.edges letter t.nodes.length }))) ∨
    (∃ i pos nd p pd letter next_letter firstCh, r = .imp i pos ∧ t.node? i = some nd ∧
      py_get t.string position = .ok letter ∧ py_get t.string pos = .ok next_letter ∧
      letter ≠ next_letter ∧ nd.parent_node = some p ∧ t.node? p = some pd ∧
      py_get t.string nd.edge_start = .ok firstCh ∧
      t1 = Tree.mk t.string
        (modifyAt (modifyAt (t.nodes ++
            [{ mkNode t.string.length p nd.edge_start (some pos) with
                edges := py_dict_set (py_dict_set [] next_letter i) letter
                  (t.nodes.length + 1) },
              mkNode t.string.length t.nodes.length position none]) p
            (fun d => { d with edges := py_dict_set d.edges firstCh t.nodes.length })) i
            (fun d => { d with edge_start := pos, parent_node := some t.nodes.length }))) := by
  cases r with
  | exp i =>
    simp only [add_edge] at h
    cases hnd : t.node? i with
    | none => rw [hnd] at h; simp [lift?_none] at h
    | some nd =>
      rw [hnd] at h
      simp only [lift?_some, except_ok_bind] at h
      cases hlet : py_get t.string position with
      | error e => rw [hlet] at h; simp at h
      | ok letter =>
        rw [hlet] at h
        simp only [except_ok_bind] at h
        by_cases h3 : (py_dict_get nd.edges letter).isSome
        · rw [if_pos h3] at h
          cases htr : trace_string fuel t (.exp i) position none with
          | error e => rw [htr] at h; simp at h
          | ok r1 =>
            rw [htr] at h
            simp only [except_ok_bind] at h
            exact Or.inl (congrArg (fun x => x.2.2) (Except.ok.inj h)).symm
        · rw [if_neg h3] at h
          by_cases h2 : nd.edges ≠ [] ∨ nd.is_root
          · rw [if_pos h2] at h
            cases htr : trace_string fuel
                (Tree.mk t.string
                  (modifyAt (t.nodes ++ [mkNode t.string.length i position none]) i
                    (fun d => { d with edges := py_dict_set d.edges letter t.nodes.length })))
                (.exp i) position none with
            | error e => rw [htr] at h; simp at h
            | ok r1 =>
              rw [htr] at h
              simp only [except_ok_bind] at h
              refine Or.inr (Or.inl ⟨i, nd, letter, rfl, hnd, rfl,
                Option.not_isSome_iff_eq_none.mp h3, by simpa using h2, ?_⟩)
              exact (congrArg (fun x => x.2.2) (Except.ok.inj h)).symm
          · rw [if_neg h2] at h
            cases htr : trace_string fuel t (.exp i) position none with
            | error e => rw [htr] at h; simp at h
            | ok r1 =>
              rw [htr] at h
              simp only [except_ok_bind] at h
              exact Or.inl (congrArg (fun x => x.2.2) (Except.ok.inj h)).symm
  | imp i pos =>
    simp only [add_edge] at h
    cases hnd : t.node? i with
    | none => rw [hnd] at h; simp [lift?_none] at h
    | some nd =>
      rw [hnd] at h
      simp only [lift?_some, except_ok_bind] at h
      cases hl : py_get t.string position with
      | error e => rw [hl] at h; simp at h
      | ok letter =>
        rw [hl] at h
        simp only [except_ok_bind] at h
        cases hn : py_get t.string pos with
        | error e => rw [hn] at h; simp at h
        | ok next_letter =>
          rw [hn] at h
          simp only [except_ok_bind] at h
          by_cases heq : letter = next_letter
          · rw [if_pos heq] at h
            by_cases hee : (nd.edge_end : Int) - (pos : Int) = 1
            · rw [if_pos hee] at h
              exact Or.inl (congrArg (fun x => x.2.2) (Except.ok.inj h)).symm
            · rw [if_neg hee] at h
              exact Or.inl (congrArg (fun x => x.2.2) (Except.ok.inj h)).symm
          · rw [if_neg heq] at h
            cases hp : nd.parent_node with
            | none => rw [hp] at h; simp [lift?_none] at h
            | some p =>
              rw [hp] at h
              simp only [lift?_some, except_ok_bind] at h
              cases hpd : t.node? p with
              | none => rw [hpd] at h; simp [lift?_none] at h
              | some pd =>
                rw [hpd] at h
                simp only [lift?_some, except_ok_bind] at h
                cases hfc : py_get t.string nd.edge_start with
                | error e => rw [hfc] at h; simp at h
                | ok firstCh =>
                  rw [hfc] at h
                  simp only [except_ok_bind] at h
                  cases htr : trace_string fuel
                      (Tree.mk t.string
                        (modifyAt (modifyAt (t.nodes ++
                            [{ mkNode t.string.length p nd.edge_start (some pos) with
                                edges := py_dict_set (py_dict_set [] next_letter i) letter
                                  (t.nodes.length + 1) },
                              mkNode t.string.length t.nodes.length position none]) p
                            (fun d => { d with edges := py_dict_set d.edges firstCh t.nodes.length })) i
                            (fun d => { d with edge_start := pos, parent_node := some t.nodes.length })))
                      (.exp t.nodes.length) position none with
                  | error e => rw [htr] at h; simp at h
                  | ok r1 =>
                    rw [htr] at h
                    simp only [except_ok_bind] at h
                    refine Or.inr (Or.inr ⟨i, pos, nd, p, pd, letter, next_letter, firstCh,
                      rfl, hnd, rfl, hn, heq, hp, hpd, hfc, ?_⟩)
                    exact (congrArg (fun x => x.2.2) (Except.ok.inj h)).symm

theorem py_dict_set_ne_nil (l : List (Char × Nat)) (k : Char) (v : Nat) :
    py_dict_set l k v ≠ [] := by
  cases l with
  | nil => simp [py_dict_set]
  | cons kv rest =>
    obtain ⟨k1, v1⟩ := kv
    by_cases hk : k1 = k <;> simp [py_dict_set, hk]

theorem implicit_suffix_link_shape (fuel : Nat) (t : Tree) (i pos : Nat) (r : Ref) (t2 : Tree)
    (h : implicit_suffix_link fuel t i pos = .ok (r, t2)) :
    t2.string = t.string ∧ same_shape t.nodes t2.nodes := by
  simp only [implicit_suffix_link] at h
  cases hnd : t.node? i with
  | none => rw [hnd] at h; simp [lift?_none] at h
  | some nd =>
    rw [hnd] at h
    simp only [lift?_some, except_ok_bind] at h
    cases hp : nd.parent_node with
    | none => rw [hp] at h; simp [lift?_none] at h
    | some p =>
      rw [hp] at h
      simp only [lift?_some, except_ok_bind] at h
      cases hrec : get_suffix_link fuel t p with
      | error e => rw [hrec] at h; simp at h
      | ok pr =>
        obtain ⟨psl0, tmid⟩ := pr
        rw [hrec] at h
        simp only [except_ok_bind] at h
        obtain ⟨⟨hstr, hshape⟩, -⟩ := get_suffix_link_spec fuel t p psl0 tmid hrec
        cases hnd1 : tmid.node? i with
        | none => rw [hnd1] at h; simp [lift?_none] at h
        | some nd1 =>
          rw [hnd1] at h
          simp only [lift?_some, except_ok_bind] at h
          cases psl0 with
          | none =>
            simp only [] at h
            cases hpd : tmid.node? p with
            | none => rw [hpd] at h; simp [lift?_none] at h
            | some pd1 =>
              rw [hpd] at h
              simp only [lift?_some, except_ok_bind] at h
              by_cases hroot : pd1.is_root
              · rw [if_pos hroot] at h
                cases htr : trace_string fuel tmid (.exp p) (nd1.edge_start + 1) (some pos) with
                | error e => rw [htr] at h; simp at h
                | ok r1 =>
                  rw [htr] at h
                  simp only [except_ok_bind] at h
                  have ht2 : t2 = tmid := (congrArg (fun x => x.2) (Except.ok.inj h)).symm
                  subst ht2
                  exact ⟨hstr, hshape⟩
              · rw [if_neg hroot] at h
                simp at h
          | some q =>
            simp only [] at h
            cases htr : trace_string fuel tmid q nd1.edge_start (some pos) with
            | error e => rw [htr] at h; simp at h
            | ok r1 =>
              rw [htr] at h
              simp only [except_ok_bind] at h
              have ht2 : t2 = tmid := (congrArg (fun x => x.2) (Except.ok.inj h)).symm
              subst ht2
              exact ⟨hstr, hshape⟩

theorem ref_suffix_link_shape (fuel : Nat) (t : Tree) (r : Ref) (o : Option Ref) (t2 : Tree)
    (h : ref_suffix_link fuel t r = .ok (o, t2)) :
    t2.string = t.string ∧ same_shape t.nodes t2.nodes := by
  cases r with
  | exp i => exact (get_suffix_link_spec fuel t i o t2 h).1
  | imp i pos =>
    simp only [ref_suffix_link] at h
    cases hisl : implicit_suffix_link fuel t i pos with
    | error e => rw [hisl] at h; simp at h
    | ok pr =>
      rw [hisl] at h
      simp only [except_ok_bind] at h
      have ht2 : t2 = pr.2 := (congrArg (fun x => x.2) (Except.ok.inj h)).symm
      subst ht2
      exact implicit_suffix_link_shape fuel t i pos pr.1 pr.2 (by rw [hisl])

theorem add_edge_edge_end (fuel : Nat) (t : Tree) (r : Ref) (position op : Nat) (nr : Ref)
    (t1 : Tree) (h : add_edge fuel t r position = .ok (op, nr, t1)) :
    t1.string = t.string ∧
    (∀ j nd nd1, t.node? j = some nd → t1.node? j = some nd1 → nd1.edge_end = nd.edge_end) ∧
    (∀ j nd1, t.nodes.length ≤ j → t1.node? j = some nd1 → nd1.edges = [] →
      nd1.edge_end = t.string.length) := by
  rcases add_edge_cases fuel t r position op nr t1 h with rfl |
    ⟨i, nd, letter, -, hnd, -, -, -, rfl⟩ |
    ⟨i, pos, nd, p, pd, letter, next_letter, firstCh, -, hnd, -, -, -, -, hpd, -, rfl⟩
  · refine ⟨rfl, fun j ndj nd1 h1 h2 => by rw [h1] at h2; cases h2; rfl,
      fun j nd1 hj h1 _h2 => ?_⟩
    have hnone : t1.node? j = none := List.get?_eq_none.mpr hj
    rw [hnone] at h1
    cases h1
  · have hi : i < t.nodes.length := (List.get?_eq_some.mp hnd).1
    refine ⟨rfl, fun j ndj nd1 h1 h2 => ?_, fun j nd1 hj h2 h3 => ?_⟩
    · have hjlt : j < t.nodes.length := (List.get?_eq_some.mp h1).1
      have h2a : (modifyAt (t.nodes ++ [mkNode t.string.length i position none]) i
          (fun d => { d with edges := py_dict_set d.edges letter t.nodes.length })).get? j =
          some nd1 := h2
      rw [modifyAt_get?] at h2a
      by_cases hij : i = j
      · rw [if_pos hij, get?_append_lt _ _ _ hjlt,
          show t.nodes.get? j = some ndj from h1] at h2a
        cases h2a
        rfl
      · rw [if_neg hij, get?_append_lt _ _ _ hjlt,
          show t.nodes.get? j = some ndj from h1] at h2a
        cases h2a
        rfl
    · have h2a : (modifyAt (t.nodes ++ [mkNode t.string.length i position none]) i
          (fun d => { d with edges := py_dict_set d.edges letter t.nodes.length })).get? j =
          some nd1 := h2
      rw [modifyAt_get?, if_neg (by omega), get?_append_ge _ _ _ hj] at h2a
      cases hdiff : j - t.nodes.length with
      | zero =>
        rw [hdiff] at h2a
        cases h2a
        rfl
      | succ m =>
        rw [hdiff] at h2a
        simp at h2a
  · have hi : i < t.nodes.length := (List.get?_eq_some.mp hnd).1
    have hpl : p < t.nodes.length := (List.get?_eq_some.mp hpd).1
    refine ⟨rfl, fun j ndj nd1 h1 h2 => ?_, fun j nd1 hj h2 h3 => ?_⟩
    · have hjlt : j < t.nodes.length := (List.get?_eq_some.mp h1).1
      have h2a : (modifyAt (modifyAt (t.nodes ++
          [{ mkNode t.string.length p nd.edge_start (some pos) with
              edges := py_dict_set (py_dict_set [] next_letter i) letter
                (t.nodes.length + 1) },
            mkNode t.string.length t.nodes.length position none]) p
          (fun d => { d with edges := py_dict_set d.edges firstCh t.nodes.length })) i
          (fun d => { d with edge_start := pos, parent_node := some t.nodes.length })).get? j =
          some nd1 := h2
      rw [modifyAt_get?, modifyAt_get?, get?_append_lt _ _ _ hjlt,
        show t.nodes.get? j = some ndj from h1] at h2a
      by_cases hij : i = j <;> by_cases hpj : p = j <;>
        simp only [hij, hpj, if_pos, if_neg, Option.map_some'] at h2a <;>
        (try cases h2a) <;> rfl
    · have h2a : (modifyAt (modifyAt (t.nodes ++
          [{ mkNode t.string.length p nd.edge_start (some pos) with
              edges := py_dict_set (py_dict_set [] next_letter i) letter
                (t.nodes.length + 1) },
            mkNode t.string.length t.nodes.length position none]) p
          (fun d => { d with edges := py_dict_set d.edges firstCh t.nodes.length })) i
          (fun d => { d with edge_start := pos, parent_node := some t.nodes.length })).get? j =
          some nd1 := h2
      rw [modifyAt_get?, if_neg (by omega), modifyAt_get?, if_neg (by omega),
        get?_append_ge _ _ _ hj] at h2a
      cases hdiff : j - t.nodes.length with
      | zero =>
        rw [hdiff] at h2a
        cases h2a
        exact absurd h3 (py_dict_set_ne_nil _ _ _)
      | succ m =>
        rw [hdiff] at h2a
        cases m with
        | zero =>
          cases h2a
          rfl
        | succ m2 =>
          simp at h2a

theorem same_shape_node?_fwd {ns ns1 : List NodeData} (hs : same_shape ns ns1) {j : Nat}
    {d1 : NodeData} (h : ns1.get? j = some d1) :
    ∃ d, ns.get? j = some d ∧ strip_memo d1 = strip_memo d := by
  have h2 := hs.2 j
  rw [h] at h2
  cases h1 : ns.get? j with
  | none => rw [h1] at h2; simp at h2
  | some d =>
    rw [h1] at h2
    simp at h2
    exact ⟨d, rfl, h2⟩

theorem leaf_ends_shape {t t2 : Tree} (hstr : t2.string = t.string)
    (hs : same_shape t.nodes t2.nodes) (hle : leaf_ends t) : leaf_ends t2 := by
  intro j nd1 h1 hroot hedges
  obtain ⟨nd, hnd, hstrip⟩ := same_shape_node?_fwd hs h1
  obtain ⟨-, -, hee, hedg, hrt⟩ := strip_memo_fields hstrip
  rw [hee, hstr]
  exact hle j nd hnd (hrt ▸ hroot) (hedg ▸ hedges)

theorem add_edge_leaf_ends (fuel : Nat) (t : Tree) (r : Ref) (position op : Nat) (nr : Ref)
    (t1 : Tree) (h : add_edge fuel t r position = .ok (op, nr, t1)) (hle : leaf_ends t) :
    leaf_ends t1 := by
  rcases add_edge_cases fuel t r position op nr t1 h with rfl |
    ⟨i, nd, letter, -, hnd, -, -, -, rfl⟩ |
    ⟨i, pos, nd, p, pd, letter, next_letter, firstCh, -, hnd, -, -, -, -, hpd, -, rfl⟩
  · exact hle
  · have hi : i < t.nodes.length := (List.get?_eq_some.mp hnd).1
    intro j nd1 h2 hroot hedges
    have h2a : (modifyAt (t.nodes ++ [mkNode t.string.length i position none]) i
        (fun d => { d with edges := py_dict_set d.edges letter t.nodes.length })).get? j =
        some nd1 := h2
    rw [modifyAt_get?] at h2a
    by_cases hij : i = j
    · rw [if_pos hij, get?_append_lt _ _ _ (hij ▸ hi),
        show t.nodes.get? j = some nd from hij ▸ hnd] at h2a
      simp only [Option.map_some'] at h2a
      cases h2a
      exact absurd hedges (py_dict_set_ne_nil _ _ _)
    · rw [if_neg hij] at h2a
      by_cases hjl : j < t.nodes.length
      · rw [get?_append_lt _ _ _ hjl] at h2a
        exact hle j nd1 h2a hroot hedges
      · rw [get?_append_ge _ _ _ (by omega)] at h2a
        cases hdiff : j - t.nodes.length with
        | zero =>
          rw [hdiff] at h2a
          cases h2a
          rfl
        | succ m =>
          rw [hdiff] at h2a
          simp at h2a
  · have hi : i < t.nodes.length := (List.get?_eq_some.mp hnd).1
    have hpl : p < t.nodes.length := (List.get?_eq_some.mp hpd).1
    intro j nd1 h2 hroot hedges
    have h2a : (modifyAt (modifyAt (t.nodes ++
        [{ mkNode t.string.length p nd.edge_start (some pos) with
            edges := py_dict_set (py_dict_set [] next_letter i) letter
              (t.nodes.length + 1) },
          mkNode t.string.length t.nodes.length position none]) p
        (fun d => { d with edges := py_dict_set d.edges firstCh t.nodes.length })) i
        (fun d => { d with edge_start := pos, parent_node := some t.nodes.length })).get? j =
        some nd1 := h2
    rw [modifyAt_get?, modifyAt_get?] at h2a
    by_cases hjl : j < t.nodes.length
    · rw [get?_append_lt _ _ _ hjl] at h2a
      cases hndj : t.nodes.get? j with
      | none => rw [hndj] at h2a; simp at h2a
      | some ndj =>
        rw [hndj] at h2a
        by_cases hij : i = j
        · by_cases hpj : p = j
          · rw [if_pos hij, if_pos hpj] at h2a
            simp only [Option.map_some'] at h2a
            cases h2a
            exact absurd hedges (py_dict_set_ne_nil _ _ _)
          · rw [if_pos hij, if_neg hpj] at h2a
            simp only [Option.map_some'] at h2a
            cases h2a
            exact hle j ndj hndj hroot hedges
        · by_cases hpj : p = j
          · rw [if_neg hij, if_pos hpj] at h2a
            simp only [Option.map_some'] at h2a
            cases h2a
            exact absurd hedges (py_dict_set_ne_nil _ _ _)
          · rw [if_neg hij, if_neg hpj] at h2a
            cases h2a
            exact hle j nd1 hndj hroot hedges
    · rw [if_neg (by omega), if_neg (by omega), get?_append_ge _ _ _ (by omega)] at h2a
      cases hdiff : j - t.nodes.length with
      | zero =>
        rw [hdiff] at h2a
        cases h2a
        exact absurd hedges (py_dict_set_ne_nil _ _ _)
      | succ m =>
        rw [hdiff] at h2a
        cases m with
        | zero =>
          cases h2a
          rfl
        | succ m2 => simp at h2a

theorem inner_loop_preserve (P : Tree → Prop)
    (hadd : ∀ fuel t r pos op nr t1, add_edge fuel t r pos = .ok (op, nr, t1) → P t → P t1)
    (hsl : ∀ fuel t r o t1, ref_suffix_link fuel t r = .ok (o, t1) → P t → P t1) :
    ∀ fuel t cur i res, inner_loop fuel t cur i = .ok res → P t → P res.2 := by
  intro fuel
  induction fuel with
  | zero =>
    intro t cur i res hres
    exact absurd hres (by simp [inner_loop])
  | succ fuel ih =>
    intro t cur i res hres hP
    simp only [inner_loop] at hres
    cases hae : add_edge fuel t cur i with
    | error e => rw [hae] at hres; simp at hres
    | ok step =>
      obtain ⟨op, nr, t1⟩ := step
      rw [hae] at hres
      simp only [except_ok_bind] at hres
      have hP1 := hadd fuel t cur i op nr t1 hae hP
      by_cases hcond : op = 3 ∨ is_root_ref t1 cur
      · rw [if_pos hcond] at hres
        cases hres
        exact hP1
      · rw [if_neg hcond] at hres
        cases hsl2 : ref_suffix_link fuel t1 cur with
        | error e => rw [hsl2] at hres; simp at hres
        | ok slp =>
          obtain ⟨o, t2⟩ := slp
          rw [hsl2] at hres
          simp only [except_ok_bind] at hres
          cases o with
          | none => simp at hres
          | some sl =>
            simp only [] at hres
            exact ih t2 sl i res hres (hsl fuel t1 cur (some sl) t2 hsl2 hP1)

theorem phases_preserve (P : Tree → Prop)
    (hadd : ∀ fuel t r pos op nr t1, add_edge fuel t r pos = .ok (op, nr, t1) → P t → P t1)
    (hsl : ∀ fuel t r o t1, ref_suffix_link fuel t r = .ok (o, t1) → P t → P t1) :
    ∀ (l : List Nat) (fuel : Nat) (t : Tree) (cur : Ref) (res : Ref × Tree),
      phases fuel l t cur = .ok res → P t → P res.2 := by
  intro l
  induction l with
  | nil =>
    intro fuel t cur res hres hP
    cases hres
    exact hP
  | cons i rest ih =>
    intro fuel t cur res hres hP
    simp only [phases] at hres
    cases hil : inner_loop fuel t cur i with
    | error e => rw [hil] at hres; simp at hres
    | ok st =>
      rw [hil] at hres
      simp only [except_ok_bind] at hres
      exact ih fuel st.2 st.1 res hres (inner_loop_preserve P hadd hsl fuel t cur i st hil hP)

theorem ukkonen_preserve (P : Tree → Prop)
    (hadd : ∀ fuel t r pos op nr t1, add_edge fuel t r pos = .ok (op, nr, t1) → P t → P t1)
    (hsl : ∀ fuel t r o t1, ref_suffix_link fuel t r = .ok (o, t1) → P t → P t1)
    (fuel : Nat) (s : List Char) (t : Tree)
    (hinit : P (Tree.mk s [rootData])) (h : ukkonen fuel s = .ok t) : P t := by
  simp only [ukkonen] at h
  cases hph : phases fuel (List.range s.length) (Tree.mk s [rootData]) (.exp 0) with
  | error e => rw [hph] at h; simp at h
  | ok res =>
    rw [hph] at h
    simp only [except_ok_bind] at h
    cases h
    exact phases_preserve P hadd hsl (List.range s.length) fuel (Tree.mk s [rootData])
      (.exp 0) res hph hinit

/-- C10: leaf edge ends.  `add_edge` never modifies the `edge_end` of any
existing node and every node it creates with no children (a leaf) stores
`edge_end = len(string)` up front (`Node.__init__`'s default); the
suffix-link reads — the only other mutation during construction — change no
`edge_end` either; consequently in every finished tree each non-root node
with no children stores `edge_end = len(string)`.  There is no per-phase
"open end" sentinel at runtime and no leaf edge end is rewritten as phases
advance. -/
theorem c10_leaf_edge_end :
    (∀ fuel t r position op nr t1, add_edge fuel t r position = .ok (op, nr, t1) →
      t1.string = t.string ∧
      (∀ j nd nd1, t.node? j = some nd → t1.node? j = some nd1 → nd1.edge_end = nd.edge_end) ∧
      (∀ j nd1, t.nodes.length ≤ j → t1.node? j = some nd1 → nd1.edges = [] →
        nd1.edge_end = t.string.length)) ∧
    (∀ fuel t r o t2, ref_suffix_link fuel t r = .ok (o, t2) →
      ∀ j nd nd1, t.node? j = some nd → t2.node? j = some nd1 → nd1.edge_end = nd.edge_end) ∧
    (∀ fuel s t, ukkonen fuel s = .ok t →
      ∀ j nd, t.node? j = some nd → nd.is_root = false → nd.edges = [] →
        nd.edge_end = s.length) := by
  refine ⟨add_edge_edge_end, ?_, ?_⟩
  · intro fuel t r o t2 h j nd nd1 h1 h2
    obtain ⟨-, hs⟩ := ref_suffix_link_shape fuel t r o t2 h
    obtain ⟨ndw, hndw, hstrip⟩ := same_shape_node?_fwd hs h2
    rw [show t.nodes.get? j = some nd from h1] at hndw
    cases hndw
    exact (strip_memo_fields hstrip).2.2.1
  · intro fuel s t h j nd h1 h2 h3
    have hP := ukkonen_preserve (fun tt => tt.string = s ∧ leaf_ends tt)
      (fun fuel t r pos op nr t1 ha hpt =>
        ⟨(add_edge_edge_end fuel t r pos op nr t1 ha).1.trans hpt.1,
         add_edge_leaf_ends fuel t r pos op nr t1 ha hpt.2⟩)
      (fun fuel t r o t1 hr hpt =>
        ⟨(ref_suffix_link_shape fuel t r o t1 hr).1.trans hpt.1,
         leaf_ends_shape (ref_suffix_link_shape fuel t r o t1 hr).1
           (ref_suffix_link_shape fuel t r o t1 hr).2 hpt.2⟩)
      fuel s t ⟨rfl, ?_⟩ h
    · exact (hP.2 j nd h1 h2 h3).trans (by rw [hP.1])
    · intro j ndr hn hroot _hedg
      cases j with
      | zero =>
        cases hn
        simp [rootData] at hroot
      | succ m =>
        cases m <;> simp [Tree.node?, rootData] at hn

/-- Witness for `c10_leaf_edge_end`: its three parts applied at concrete
runs (rule-3 extension, a root suffix-link read, and the finished tree of
`ab`, whose childless node 1 stores `edge_end = 2 = len`). -/
theorem c10_leaf_edge_end_witness :
    c3_tree.string = c3_tree.string ∧
      (NodeData.mk none 0 0 [('a', 1)] none true).edge_end =
        (NodeData.mk none 0 0 [('a', 1)] none true).edge_end ∧
      (NodeData.mk (some 0) 0 2 [] none false).edge_end = (['a', 'b'] : List Char).length :=
  ⟨(c10_leaf_edge_end.1 30 c3_tree (.exp 0) 0 3 (.imp 1 1) c3_tree (by decide)).1,
   c10_leaf_edge_end.2.1 10 c3_tree (.exp 0) none c3_tree (by decide) 0
     (NodeData.mk none 0 0 [('a', 1)] none true)
     (NodeData.mk none 0 0 [('a', 1)] none true) (by decide) (by decide),
   c10_leaf_edge_end.2.2 30 ['a', 'b'] c10_tree (by decide) 1
     (NodeData.mk (some 0) 0 2 [] none false) (by decide) (by decide) (by decide)⟩

theorem wf_shape {t t2 : Tree} (hstr : t2.string = t.string)
    (hs : same_shape t.nodes t2.nodes) (hwf : wf t) : wf t2 := by
  constructor
  · intro j ndj h1
    obtain ⟨nd, hnd, hstrip⟩ := same_shape_node?_fwd hs h1
    rw [(strip_memo_fields hstrip).1]
    exact hwf.1 j nd hnd
  · intro j ndj h1
    obtain ⟨nd, hnd, hstrip⟩ := same_shape_node?_fwd hs h1
    obtain ⟨hnodup, hmem⟩ := hwf.2 j nd hnd
    rw [(strip_memo_fields hstrip).2.2.2.1]
    refine ⟨hnodup, fun kc hkc => ?_⟩
    obtain ⟨hlt, cd, hcd, hpar, hget⟩ := hmem kc hkc
    obtain ⟨cd1, hcd1, hstrip1⟩ := same_shape_node?_rev hs hcd
    exact ⟨hs.1 ▸ hlt, cd1, hcd1, (strip_memo_fields hstrip1).1 ▸ hpar,
      by rw [(strip_memo_fields hstrip1).2.1, hstr]; exact hget⟩

theorem add_edge_wf (fuel : Nat) (t : Tree) (r : Ref) (position op : Nat) (nr : Ref)
    (t1 : Tree) (h : add_edge fuel t r position = .ok (op, nr, t1)) (hwf : wf t) : wf t1 := by
  rcases add_edge_cases fuel t r position op nr t1 h with rfl |
    ⟨i, nd, letter, -, hnd, hlet, hget, -, rfl⟩ |
    ⟨i, pos, nd, p, pd, letter, next_letter, firstCh, -, hnd, hl, hn, hne, hp, hpd, hfc, rfl⟩
  · exact hwf
  · have hi : i < t.nodes.length := (List.get?_eq_some.mp hnd).1
    have hslet : t.string.get? position = some letter := (py_get_ok_iff _ _ _).mp hlet
    have hinodup := (hwf.2 i nd hnd).1
    constructor
    · intro j ndj h1
      have h1a : (modifyAt (t.nodes ++ [mkNode t.string.length i position none]) i
          (fun d => { d with edges := py_dict_set d.edges letter t.nodes.length })).get? j =
          some ndj := h1
      rw [modifyAt_get?] at h1a
      by_cases hij : i = j
      · rw [if_pos hij, get?_append_lt _ _ _ (hij ▸ hi),
          show t.nodes.get? j = some nd from hij ▸ hnd] at h1a
        simp only [Option.map_some'] at h1a
        cases h1a
        exact hij ▸ hwf.1 i nd hnd
      · rw [if_neg hij] at h1a
        by_cases hjl : j < t.nodes.length
        · rw [get?_append_lt _ _ _ hjl] at h1a
          exact hwf.1 j ndj h1a
        · rw [get?_append_ge _ _ _ (by omega)] at h1a
          cases hdiff : j - t.nodes.length with
          | zero =>
            rw [hdiff] at h1a
            cases h1a
            have : j = t.nodes.length := by omega
            simp [mkNode, this]
            omega
          | succ m =>
            rw [hdiff] at h1a
            simp at h1a
    · intro j ndj h1
      have h1a : (modifyAt (t.nodes ++ [mkNode t.string.length i position none]) i
          (fun d => { d with edges := py_dict_set d.edges letter t.nodes.length })).get? j =
          some ndj := h1
      have hlen1 : (Tree.mk t.string
          (modifyAt (t.nodes ++ [mkNode t.string.length i position none]) i
            (fun d => { d with edges := py_dict_set d.edges letter t.nodes.length }))).nodes.length =
          t.nodes.length + 1 := by
        show (modifyAt _ _ _).length = _
        rw [modifyAt_length]
        simp
      have hleafn : (Tree.mk t.string
          (modifyAt (t.nodes ++ [mkNode t.string.length i position none]) i
            (fun d => { d with edges := py_dict_set d.edges letter t.nodes.length }))).node?
            t.nodes.length = some (mkNode t.string.length i position none) := by
        show (modifyAt _ _ _).get? _ = _
        rw [modifyAt_get?, if_neg (Nat.ne_of_lt hi), get?_append_ge _ _ _ (Nat.le_refl _)]
        simp
      have holdn : ∀ c cd, t.node? c = some cd → c ≠ i →
          (Tree.mk t.string
            (modifyAt (t.nodes ++ [mkNode t.string.length i position none]) i
              (fun d => { d with edges := py_dict_set d.edges letter t.nodes.length }))).node? c =
            some cd := by
        intro c cd hcd hci
        have hcl : c < t.nodes.length := (List.get?_eq_some.mp hcd).1
        show (modifyAt _ _ _).get? _ = _
        rw [modifyAt_get?, if_neg (fun hh => hci hh.symm), get?_append_lt _ _ _ hcl]
        exact hcd
      have hin : (Tree.mk t.string
          (modifyAt (t.nodes ++ [mkNode t.string.length i position none]) i
            (fun d => { d with edges := py_dict_set d.edges letter t.nodes.length }))).node? i =
          some { nd with edges := py_dict_set nd.edges letter t.nodes.length } := by
        show (modifyAt _ _ _).get? _ = _
        rw [modifyAt_get?, if_pos rfl, get?_append_lt _ _ _ hi,
          show t.nodes.get? i = some nd from hnd]
        rfl
      rw [hlen1]
      have hmemold : ∀ (jj : Nat) (ndjj : NodeData), t.node? jj = some ndjj →
          ∀ kc ∈ ndjj.edges, kc.2 < t.nodes.length + 1 ∧
            ∃ cd, (Tree.mk t.string
              (modifyAt (t.nodes ++ [mkNode t.string.length i position none]) i
                (fun d => { d with edges := py_dict_set d.edges letter t.nodes.length }))).node?
                kc.2 = some cd ∧
              cd.parent_node = some jj ∧ t.string.get? cd.edge_start = some kc.1 := by
        intro jj ndjj hndjj kc hkc
        obtain ⟨hlt, cd, hcd, hpar, hg⟩ := (hwf.2 jj ndjj hndjj).2 kc hkc
        by_cases hci : kc.2 = i
        · subst hci
          rw [hnd] at hcd
          cases hcd
          exact ⟨by omega, { nd with edges := py_dict_set nd.edges letter t.nodes.length },
            hin, hpar, hg⟩
        · exact ⟨by omega, cd, holdn kc.2 cd hcd hci, hpar, hg⟩
      have h1b : (modifyAt (t.nodes ++ [mkNode t.string.length i position none]) i
          (fun d => { d with edges := py_dict_set d.edges letter t.nodes.length })).get? j =
          some ndj := h1a
      rw [modifyAt_get?] at h1b
      by_cases hij : i = j
      · rw [if_pos hij, get?_append_lt _ _ _ (hij ▸ hi),
          show t.nodes.get? j = some nd from hij ▸ hnd] at h1b
        simp only [Option.map_some'] at h1b
        cases h1b
        refine ⟨py_dict_set_nodup hinodup, fun kc hkc => ?_⟩
        rcases py_dict_set_mem hinodup hkc with rfl | ⟨hmem, -⟩
        · exact ⟨by omega, mkNode t.string.length i position none, hleafn, by simp [mkNode, hij],
            by simpa [mkNode] using hslet⟩
        · exact hij ▸ hmemold i nd hnd kc hmem
      · rw [if_neg hij] at h1b
        by_cases hjl : j < t.nodes.length
        · rw [get?_append_lt _ _ _ hjl] at h1b
          exact ⟨(hwf.2 j ndj h1b).1, hmemold j ndj h1b⟩
        · rw [get?_append_ge _ _ _ (by omega)] at h1b
          cases hdiff : j - t.nodes.length with
          | zero =>
            rw [hdiff] at h1b
            cases h1b
            exact ⟨by simp [mkNode], fun kc hkc => by simp [mkNode] at hkc⟩
          | succ m =>
            rw [hdiff] at h1b
            simp at h1b
  · have hi : i < t.nodes.length := (List.get?_eq_some.mp hnd).1
    have hpl : p < t.nodes.length := (List.get?_eq_some.mp hpd).1
    have hpi : p ≠ i := fun hh => hwf.1 i nd hnd (hh ▸ hp)
    have hsl2 : t.string.get? position = some letter := (py_get_ok_iff _ _ _).mp hl
    have hsn : t.string.get? pos = some next_letter := (py_get_ok_iff _ _ _).mp hn
    have hsf : t.string.get? nd.edge_start = some firstCh := (py_get_ok_iff _ _ _).mp hfc
    have hpnodup := (hwf.2 p pd hpd).1
    have hdict : py_dict_set (py_dict_set [] next_letter i) letter (t.nodes.length + 1) =
        [(next_letter, i), (letter, t.nodes.length + 1)] := by
      simp [py_dict_set, Ne.symm hne]
    have hmidn : (Tree.mk t.string
        (modifyAt (modifyAt (t.nodes ++
            [{ mkNode t.string.length p nd.edge_start (some pos) with
                edges := py_dict_set (py_dict_set [] next_letter i) letter
                  (t.nodes.length + 1) },
              mkNode t.string.length t.nodes.length position none]) p
            (fun d => { d with edges := py_dict_set d.edges firstCh t.nodes.length })) i
            (fun d => { d with edge_start := pos, parent_node := some t.nodes.length }))).node?
        t.nodes.length = some { mkNode t.string.length p nd.edge_start (some pos) with
          edges := [(next_letter, i), (letter, t.nodes.length + 1)] } := by
      show (modifyAt _ _ _).get? _ = _
      rw [modifyAt_get?, if_neg (Nat.ne_of_lt hi), modifyAt_get?, if_neg (Nat.ne_of_lt hpl),
        get?_append_ge _ _ _ (Nat.le_refl _)]
      simp [hdict]
    have hleafn : (Tree.mk t.string
        (modifyAt (modifyAt (t.nodes ++
            [{ mkNode t.string.length p nd.edge_start (some pos) with
                edges := py_dict_set (py_dict_set [] next_letter i) letter
                  (t.nodes.length + 1) },
              mkNode t.string.length t.nodes.length position none]) p
            (fun d => { d with edges := py_dict_set d.edges firstCh t.nodes.length })) i
            (fun d => { d with edge_start := pos, parent_node := some t.nodes.length }))).node?
        (t.nodes.length + 1) = some (mkNode t.string.length t.nodes.length position none) := by
      show (modifyAt _ _ _).get? _ = _
      rw [modifyAt_get?, if_neg (by omega), modifyAt_get?, if_neg (by omega),
        get?_append_ge _ _ _ (by omega)]
      simp [show t.nodes.length + 1 - t.nodes.length = 1 from by omega]
    have hin : (Tree.mk t.string
        (modifyAt (modifyAt (t.nodes ++
            [{ mkNode t.string.length p nd.edge_start (some pos) with
                edges := py_dict_set (py_dict_set [] next_letter i) letter
                  (t.nodes.length + 1) },
              mkNode t.string.length t.nodes.length position none]) p
            (fun d => { d with edges := py_dict_set d.edges firstCh t.nodes.length })) i
            (fun d => { d with edge_start := pos, parent_node := some t.nodes.length }))).node?
        i = some { nd with edge_start := pos, parent_node := some t.nodes.length } := by
      show (modifyAt _ _ _).get? _ = _
      rw [modifyAt_get?, if_pos rfl, modifyAt_get?, if_neg hpi, get?_append_lt _ _ _ hi,
        show t.nodes.get? i = some nd from hnd]
      rfl
    have hpn : (Tree.mk t.string
        (modifyAt (modifyAt (t.nodes ++
            [{ mkNode t.string.length p nd.edge_start (some pos) with
                edges := py_dict_set (py_dict_set [] next_letter i) letter
                  (t.nodes.length + 1) },
              mkNode t.string.length t.nodes.length position none]) p
            (fun d => { d with edges := py_dict_set d.edges firstCh t.nodes.length })) i
            (fun d => { d with edge_start := pos, parent_node := some t.nodes.length }))).node?
        p = some { pd with edges := py_dict_set pd.edges firstCh t.nodes.length } := by
      show (modifyAt _ _ _).get? _ = _
      rw [modifyAt_get?, if_neg (Ne.symm hpi), modifyAt_get?, if_pos rfl,
        get?_append_lt _ _ _ hpl, show t.nodes.get? p = some pd from hpd]
      rfl
    have holdn : ∀ c cd, t.node? c = some cd → c ≠ i → c ≠ p →
        (Tree.mk t.string
          (modifyAt (modifyAt (t.nodes ++
              [{ mkNode t.string.length p nd.edge_start (some pos) with
                  edges := py_dict_set (py_dict_set [] next_letter i) letter
                    (t.nodes.length + 1) },
                mkNode t.string.length t.nodes.length position none]) p
              (fun d => { d with edges := py_dict_set d.edges firstCh t.nodes.length })) i
              (fun d => { d with edge_start := pos, parent_node := some t.nodes.length }))).node?
          c = some cd := by
      intro c cd hcd hci hcp
      have hcl : c < t.nodes.length := (List.get?_eq_some.mp hcd).1
      show (modifyAt _ _ _).get? _ = _
      rw [modifyAt_get?, if_neg (fun hh => hci hh.symm), modifyAt_get?,
        if_neg (fun hh => hcp hh.symm), get?_append_lt _ _ _ hcl]
      exact hcd
    have hlen1 : (Tree.mk t.string
        (modifyAt (modifyAt (t.nodes ++
            [{ mkNode t.string.length p nd.edge_start (some pos) with
                edges := py_dict_set (py_dict_set [] next_letter i) letter
                  (t.nodes.length + 1) },
              mkNode t.string.length t.nodes.length position none]) p
            (fun d => { d with edges := py_dict_set d.edges firstCh t.nodes.length })) i
            (fun d => { d with edge_start := pos, parent_node := some t.nodes.length }))).nodes.length =
        t.nodes.length + 2 := by
      show (modifyAt _ _ _).length = _
      rw [modifyAt_length, modifyAt_length]
      simp
    -- membership transfer for an unmodified owner jj with old entry kc
    have hmemold : ∀ (jj : Nat) (ndjj : NodeData), t.node? jj = some ndjj →
        ∀ kc ∈ ndjj.edges, kc.2 ≠ i →
          kc.2 < t.nodes.length + 2 ∧
          ∃ cd, (Tree.mk t.string
            (modifyAt (modifyAt (t.nodes ++
                [{ mkNode t.string.length p nd.edge_start (some pos) with
                    edges := py_dict_set (py_dict_set [] next_letter i) letter
                      (t.nodes.length + 1) },
                  mkNode t.string.length t.nodes.length position none]) p
                (fun d => { d with edges := py_dict_set d.edges firstCh t.nodes.length })) i
                (fun d => { d with edge_start := pos, parent_node := some t.nodes.length }))).node?
              kc.2 = some cd ∧
            cd.parent_node = some jj ∧ t.string.get? cd.edge_start = some kc.1 := by
      intro jj ndjj hndjj kc hkc hci
      obtain ⟨hlt, cd, hcd, hpar, hg⟩ := (hwf.2 jj ndjj hndjj).2 kc hkc
      by_cases hcp : kc.2 = p
      · subst hcp
        rw [hpd] at hcd
        cases hcd
        exact ⟨by omega, { pd with edges := py_dict_set pd.edges firstCh t.nodes.length },
          hpn, hpar, hg⟩
      · exact ⟨by omega, cd, holdn kc.2 cd hcd hci hcp, hpar, hg⟩
    constructor
    · intro j ndj h1
      have h1a : (modifyAt (modifyAt (t.nodes ++
          [{ mkNode t.string.length p nd.edge_start (some pos) with
              edges := py_dict_set (py_dict_set [] next_letter i) letter
                (t.nodes.length + 1) },
            mkNode t.string.length t.nodes.length position none]) p
          (fun d => { d with edges := py_dict_set d.edges firstCh t.nodes.length })) i
          (fun d => { d with edge_start := pos, parent_node := some t.nodes.length })).get? j =
          some ndj := h1
      rw [modifyAt_get?, modifyAt_get?] at h1a
      by_cases hjl : j < t.nodes.length
      · rw [get?_append_lt _ _ _ hjl] at h1a
        cases hndj : t.nodes.get? j with
        | none => rw [hndj] at h1a; simp at h1a
        | some ndjold =>
          rw [hndj] at h1a
          by_cases hij : i = j <;> by_cases hpj : p = j
          · exact absurd (hpj.trans hij.symm) hpi
          · rw [if_pos hij, if_neg hpj] at h1a
            simp only [Option.map_some'] at h1a
            cases h1a
            simp
            omega
          · rw [if_neg hij, if_pos hpj] at h1a
            simp only [Option.map_some'] at h1a
            cases h1a
            simpa using hwf.1 j ndjold hndj
          · rw [if_neg hij, if_neg hpj] at h1a
            cases h1a
            exact hwf.1 j ndj hndj
      · rw [if_neg (by omega), if_neg (by omega), get?_append_ge _ _ _ (by omega)] at h1a
        cases hdiff : j - t.nodes.length with
        | zero =>
          rw [hdiff] at h1a
          cases h1a
          have hj : j = t.nodes.length := by omega
          simp [mkNode, hj]
          omega
        | succ m =>
          rw [hdiff] at h1a
          cases m with
          | zero =>
            cases h1a
            have hj : j = t.nodes.length + 1 := by omega
            simp [mkNode, hj]
          | succ m2 => simp at h1a
    · intro j ndj h1
      have h1a : (modifyAt (modifyAt (t.nodes ++
          [{ mkNode t.string.length p nd.edge_start (some pos) with
              edges := py_dict_set (py_dict_set [] next_letter i) letter
                (t.nodes.length + 1) },
            mkNode t.string.length t.nodes.length position none]) p
          (fun d => { d with edges := py_dict_set d.edges firstCh t.nodes.length })) i
          (fun d => { d with edge_start := pos, parent_node := some t.nodes.length })).get? j =
          some ndj := h1
      rw [hlen1]
      rw [modifyAt_get?, modifyAt_get?] at h1a
      by_cases hjl : j < t.nodes.length
      · rw [get?_append_lt _ _ _ hjl] at h1a
        cases hndj : t.nodes.get? j with
        | none => rw [hndj] at h1a; simp at h1a
        | some ndjold =>
          rw [hndj] at h1a
          by_cases hij : i = j <;> by_cases hpj : p = j
          · exact absurd (hpj.trans hij.symm) hpi
          · -- j = i : edges unchanged, children entries cannot be i itself
            rw [if_pos hij, if_neg hpj] at h1a
            simp only [Option.map_some'] at h1a
            cases h1a
            refine ⟨(hwf.2 j ndjold hndj).1, fun kc hkc => ?_⟩
            have hci : kc.2 ≠ i := by
              intro hh
              obtain ⟨-, cd, hcd, hpar, -⟩ := (hwf.2 j ndjold hndj).2 kc hkc
              rw [hh] at hcd
              rw [show t.node? i = some nd from hnd] at hcd
              cases hcd
              apply hwf.1 i nd hnd
              rw [hij]
              exact hpar
            exact hmemold j ndjold hndj kc hkc hci
          · -- j = p : dictionary updated at firstCh
            rw [if_neg hij, if_pos hpj] at h1a
            simp only [Option.map_some'] at h1a
            cases h1a
            have hpdj : ndjold = pd := by
              have h2 : t.nodes.get? p = some ndjold := by rw [hpj]; exact hndj
              rw [show t.nodes.get? p = some pd from hpd] at h2
              exact (Option.some.inj h2).symm
            subst hpdj
            refine ⟨py_dict_set_nodup hpnodup, fun kc hkc => ?_⟩
            rcases py_dict_set_mem hpnodup hkc with rfl | ⟨hmem, hkne⟩
            · refine ⟨by omega, { mkNode t.string.length p nd.edge_start (some pos) with
                  edges := [(next_letter, i), (letter, t.nodes.length + 1)] }, hmidn,
                by simp [mkNode, hpj], by simpa [mkNode] using hsf⟩
            · have hci : kc.2 ≠ i := by
                intro hh
                obtain ⟨-, cd, hcd, hpar, hg⟩ := (hwf.2 j ndjold hndj).2 kc hmem
                rw [hh] at hcd
                rw [show t.node? i = some nd from hnd] at hcd
                cases hcd
                apply hkne
                rw [hg] at hsf
                exact Option.some.inj hsf
              exact hmemold j ndjold hndj kc hmem hci
          · -- untouched old node
            rw [if_neg hij, if_neg hpj] at h1a
            cases h1a
            refine ⟨(hwf.2 j ndj hndj).1, fun kc hkc => ?_⟩
            have hci : kc.2 ≠ i := by
              intro hh
              obtain ⟨-, cd, hcd, hpar, -⟩ := (hwf.2 j ndj hndj).2 kc hkc
              rw [hh] at hcd
              rw [show t.node? i = some nd from hnd] at hcd
              cases hcd
              rw [hp] at hpar
              exact hpj (Option.some.inj hpar)
            exact hmemold j ndj hndj kc hkc hci
      · rw [if_neg (by omega), if_neg (by omega), get?_append_ge _ _ _ (by omega)] at h1a
        cases hdiff : j - t.nodes.length with
        | zero =>
          rw [hdiff] at h1a
          cases h1a
          have hj : j = t.nodes.length := by omega
          subst hj
          refine ⟨by simp [hdict, Ne.symm hne], fun kc hkc => ?_⟩
          have hkc2 : kc ∈ [(next_letter, i), (letter, t.nodes.length + 1)] := by
            have hmm : kc ∈ py_dict_set (py_dict_set [] next_letter i) letter
                (t.nodes.length + 1) := hkc
            rwa [hdict] at hmm
          simp only [List.mem_cons, List.mem_singleton, List.not_mem_nil, or_false] at hkc2
          rcases hkc2 with rfl | rfl
          · exact ⟨by omega, { nd with edge_start := pos, parent_node := some t.nodes.length },
              hin, rfl, hsn⟩
          · exact ⟨by omega, mkNode t.string.length t.nodes.length position none, hleafn,
              by simp [mkNode], by simpa [mkNode] using hsl2⟩
        | succ m =>
          rw [hdiff] at h1a
          cases m with
          | zero =>
            cases h1a
            exact ⟨by simp [mkNode], fun kc hkc => by simp [mkNode] at hkc⟩
          | succ m2 => simp at h1a

/-- C8 (amended): sibling uniqueness.  In every tree produced by a
successful construction, the keys of each explicit node's children mapping
are pairwise distinct, and each key equals the character of the indexed
string at the child's `edge_start` — the first character of the child's
stored edge label whenever that label is non-empty (the counterexample
shows finished trees can contain children with empty labels, which is the
only correction to the claim). -/
theorem c8_sibling_invariant (fuel : Nat) (s : List Char) (t : Tree)
    (h : ukkonen fuel s = .ok t) :
    ∀ j nd, t.node? j = some nd →
      (nd.edges.map Prod.fst).Nodup ∧
        ∀ kc ∈ nd.edges, ∃ cd, t.node? kc.2 = some cd ∧
          s.get? cd.edge_start = some kc.1 := by
  have hinit : (Tree.mk s [rootData]).string = s ∧ wf (Tree.mk s [rootData]) := by
    refine ⟨rfl, ?_, ?_⟩
    · intro j ndj h1
      cases j with
      | zero =>
        cases h1
        simp [rootData]
      | succ m => cases m <;> simp [Tree.node?, rootData] at h1
    · intro j ndj h1
      cases j with
      | zero =>
        cases h1
        exact ⟨by simp [rootData], fun kc hkc => by simp [rootData] at hkc⟩
      | succ m => cases m <;> simp [Tree.node?, rootData] at h1
  have hP := ukkonen_preserve (fun tt => tt.string = s ∧ wf tt)
    (fun fuel t r pos op nr t1 ha hpt =>
      ⟨(add_edge_edge_end fuel t r pos op nr t1 ha).1.trans hpt.1,
       add_edge_wf fuel t r pos op nr t1 ha hpt.2⟩)
    (fun fuel t r o t1 hr hpt =>
      ⟨(ref_suffix_link_shape fuel t r o t1 hr).1.trans hpt.1,
       wf_shape (ref_suffix_link_shape fuel t r o t1 hr).1
         (ref_suffix_link_shape fuel t r o t1 hr).2 hpt.2⟩)
    fuel s t hinit h
  intro j nd hnd
  obtain ⟨hnodup, hmem⟩ := hP.2.2 j nd hnd
  refine ⟨hnodup, fun kc hkc => ?_⟩
  obtain ⟨-, cd, hcd, -, hg⟩ := hmem kc hkc
  refine ⟨cd, hcd, ?_⟩
  rw [← hP.1]
  exact hg

/-- Witness for `c8_sibling_invariant` on the finished tree of `ab`: the
root's two children sit under distinct keys `a`, `b`, each equal to the
character at the child's `edge_start`. -/
theorem c8_sibling_invariant_witness :
    ((NodeData.mk none 0 0 [('a', 1), ('b', 2)] none true).edges.map Prod.fst).Nodup ∧
      ∀ kc ∈ (NodeData.mk none 0 0 [('a', 1), ('b', 2)] none true).edges,
        ∃ cd, c10_tree.node? kc.2 = some cd ∧
          (['a', 'b'] : List Char).get? cd.edge_start = some kc.1 :=
  c8_sibling_invariant 30 ['a', 'b'] c10_tree (by decide) 0
    (NodeData.mk none 0 0 [('a', 1), ('b', 2)] none true) (by decide)

end UkkonenPy
